import Mathlib

/-!
# Distributed token-bucket rate limiter

A shallow embedding of `limiter/limiter.go` and of the HTTP middleware:

* `luaSource` is the Lua script that Redis runs atomically for one key;
* `New` and `Allow` are the Go constructor and decision operation;
* `luaSourceF64` and `NewF64` are the script and the constructor in the
  arithmetic the program computes in, IEEE-754 binary64.

Unix times and token counts are integers, and `time.Duration` is a signed
64-bit count of nanoseconds.  In `luaSource` and `New` the numbers that the
program keeps as `float64` / Lua numbers (tokens, rate, capacity) are exact
rationals; the statements proved on them are those in which rounding plays no
part.  In `luaSourceF64` and `NewF64` every conversion and every arithmetic
operation is rounded to the nearest double.
-/

namespace RateLimiter

/-! ## The bucket procedure -/

/-- The hash stored under a bucket key: fields `tokens` and `timestamp`. -/
structure Bucket where
  tokens : ℚ
  timestamp : ℤ
deriving DecidableEq

/-- The five `ARGV` entries of the script. -/
structure ScriptArgs where
  rate : ℚ
  capacity : ℚ
  now : ℤ
  requested : ℤ
  ttl : ℤ

/-- What one run of the script does: the `HMSET` it issues, the `EXPIRE`
argument, and the integer it returns. -/
structure ScriptEffect where
  stored : Bucket
  expire : ℤ
  result : ℤ
deriving DecidableEq

/-- The Lua script.  `data` is the reply of `HMGET key tokens timestamp`:
`none` when the key is absent (`tokens == nil`). -/
def luaSource (a : ScriptArgs) (data : Option Bucket) : ScriptEffect :=
  let tokens : ℚ := match data with
    | none => a.capacity
    | some b => b.tokens
  let ts : ℤ := match data with
    | none => a.now
    | some b => b.timestamp
  let delta : ℤ := max 0 (a.now - ts)
  let new_tokens : ℚ := min a.capacity (tokens + (delta : ℚ) * a.rate)
  let allowed : Bool := decide ((a.requested : ℚ) ≤ new_tokens)
  let new_tokens : ℚ := if allowed then new_tokens - (a.requested : ℚ) else new_tokens
  { stored := { tokens := new_tokens, timestamp := a.now }
    expire := a.ttl
    result := if allowed then 1 else 0 }

/-- Results of successive runs on one key, each given as `(now, requested)`,
with no expiry in between: every run reads what the previous one stored. -/
def runResults (rate capacity : ℚ) (ttl : ℤ) : Option Bucket → List (ℤ × ℤ) → List ℤ
  | _, [] => []
  | st, c :: rest =>
    let e := luaSource ⟨rate, capacity, c.1, c.2, ttl⟩ st
    e.result :: runResults rate capacity ttl (some e.stored) rest

/-- Bucket state after successive runs on one key with no expiry in between. -/
def runState (rate capacity : ℚ) (ttl : ℤ) : Option Bucket → List (ℤ × ℤ) → Option Bucket
  | st, [] => st
  | st, c :: rest =>
    runState rate capacity ttl (some (luaSource ⟨rate, capacity, c.1, c.2, ttl⟩ st).stored) rest

/-- Sum of the requested amounts of the runs that returned 1. -/
def allowedSum (rate capacity : ℚ) (ttl : ℤ) : Option Bucket → List (ℤ × ℤ) → ℤ
  | _, [] => 0
  | st, c :: rest =>
    let e := luaSource ⟨rate, capacity, c.1, c.2, ttl⟩ st
    (if e.result = 1 then c.2 else 0) + allowedSum rate capacity ttl (some e.stored) rest

/-- The `now` of the last run of a sequence (`t` when there is none). -/
def lastNow : ℤ → List (ℤ × ℤ) → ℤ
  | t, [] => t
  | _, c :: rest => lastNow c.1 rest

/-! ## The limiter -/

/-- Two-complement wrap of an integer into the range of `int64`. -/
def wrapInt64 (x : ℤ) : ℤ := (x + 2 ^ 63) % 2 ^ 64 - 2 ^ 63

/-- Nanoseconds in `time.Second`. -/
def Second : ℤ := 1000000000

/-- Go `Duration.Seconds`: `float64(d / Second) + float64(d % Second) / 1e9`. -/
def Seconds (d : ℤ) : ℚ := ((Int.tdiv d Second : ℤ) : ℚ) + ((Int.tmod d Second : ℤ) : ℚ) / 1000000000

/-- Go conversion `int(x)` of a float: truncation toward zero. -/
def truncToInt (x : ℚ) : ℤ := if 0 ≤ x then ⌊x⌋ else ⌈x⌉

/-- The `Limiter` struct (the store handle and the cached script are passed
to `Allow` explicitly). -/
structure Limiter where
  capacity : ℚ
  rate : ℚ
  ttl : ℤ
deriving DecidableEq

/-- Constructor `New`; a panic is the error value carrying its message. -/
def New (capacity : ℤ) (window : ℤ) : Except String Limiter :=
  if capacity ≤ 0 then
    .error "limiter: capacity must be > 0"
  else if window ≤ 0 then
    .error "limiter: window must be > 0"
  else
    .ok { capacity := (capacity : ℚ)
          rate := (capacity : ℚ) / Seconds window
          ttl := wrapInt64 (window * 2) }

/-- The arguments `Allow` hands to the script for a request of `n` tokens at
clock reading `now`. -/
def scriptArgs (l : Limiter) (now n : ℤ) : ScriptArgs :=
  { rate := l.rate
    capacity := l.capacity
    now := now
    requested := n
    ttl := truncToInt (Seconds l.ttl) }

/-- Method `Allow`.  The store is any state type `σ` with an operation `run`
that executes the script for a key and yields either an error or the integer
reply; `now` is the reading of `time.Now().Unix()`; `tokens` is the variadic
argument list. -/
def Allow {σ ε : Type} (run : String → ScriptArgs → σ → Except ε ℤ × σ)
    (l : Limiter) (now : ℤ) (s : σ) (key : String) (tokens : List ℤ) :
    (Bool × Option ε) × σ :=
  let n : ℤ := match tokens with
    | [] => 1
    | t :: _ => t
  if n ≤ 0 then
    ((true, none), s)
  else
    match run key (scriptArgs l now n) s with
    | (.error err, s1) => ((false, some err), s1)
    | (.ok res, s1) => ((decide (res = 1), none), s1)

/-! ## A concrete store -/

/-- One key of the store: the bucket hash and the expiry last set on it. -/
structure Entry where
  bucket : Bucket
  expire : ℤ
deriving DecidableEq

/-- A store: its keys, whether it currently fails every operation, and how
many script executions it has been asked for. -/
structure Store where
  data : String → Option Entry
  failing : Option String
  evals : ℕ

/-- Script execution against `Store`: a failing store reports its error and
keeps its keys; otherwise the script runs on the key and its writes land. -/
def Store.exec (key : String) (a : ScriptArgs) (s : Store) : Except String ℤ × Store :=
  match s.failing with
  | some err => (.error err, { s with evals := s.evals + 1 })
  | none =>
    let e := luaSource a ((s.data key).map Entry.bucket)
    (.ok e.result,
      { s with
        data := fun k => if k = key then some ⟨e.stored, e.expire⟩ else s.data k
        evals := s.evals + 1 })

/-- The empty, healthy store. -/
def Store.empty : Store := { data := fun _ => none, failing := none, evals := 0 }

/-- An empty store that fails every operation with the given error. -/
def Store.broken (err : String) : Store := { data := fun _ => none, failing := some err, evals := 0 }

/-! ## Clock readings of a run sequence -/

/-- Largest `now` among `t` and the runs of a sequence. -/
def maxNow : ℤ → List (ℤ × ℤ) → ℤ
  | t, [] => t
  | t, c :: rest => maxNow (max t c.1) rest

/-- Smallest `now` among `t` and the runs of a sequence. -/
def minNow : ℤ → List (ℤ × ℤ) → ℤ
  | t, [] => t
  | t, c :: rest => minNow (min t c.1) rest

/-- Total forward movement of `now` along a run sequence that follows a run
at time `t`: the sum of `max(0, now_i - now_(i-1))`. -/
def forwardTravel : ℤ → List (ℤ × ℤ) → ℤ
  | _, [] => 0
  | t, c :: rest => max 0 (c.1 - t) + forwardTravel c.1 rest

/-! ## The HTTP middleware -/

/-- What the middleware reads of a request: `r.Header.Get("X-Forwarded-For")`
and `r.RemoteAddr`, as character sequences. -/
structure Request where
  xForwardedFor : List Char
  remoteAddr : List Char

/-- Go `unicode.IsSpace`: the code points with the White_Space property. -/
def isSpace (c : Char) : Bool :=
  c.toNat = 9 || c.toNat = 10 || c.toNat = 11 || c.toNat = 12 || c.toNat = 13 ||
  c.toNat = 32 || c.toNat = 133 || c.toNat = 160 || c.toNat = 5760 ||
  (8192 ≤ c.toNat && c.toNat ≤ 8202) || c.toNat = 8232 || c.toNat = 8233 ||
  c.toNat = 8239 || c.toNat = 8287 || c.toNat = 12288

/-- Go `strings.TrimSpace`: leading and trailing white space cut off. -/
def TrimSpace (s : List Char) : List Char :=
  ((s.dropWhile isSpace).reverse.dropWhile isSpace).reverse

/-- Go `strings.Split(s, sep)` for a separator of one character: the pieces
of `s` between the occurrences of `sep`. -/
def Split : List Char → Char → List (List Char)
  | [], _ => [[]]
  | c :: cs, sep =>
    if c = sep then [] :: Split cs sep
    else
      match Split cs sep with
      | [] => [[c]]
      | p :: ps => (c :: p) :: ps

/-- Go `strings.LastIndex(s, sep)` for a separator of one character: the
index of its last occurrence, or -1. -/
def LastIndex : List Char → Char → ℤ
  | [], _ => -1
  | x :: xs, c =>
    if LastIndex xs c ≠ -1 then LastIndex xs c + 1
    else if x = c then 0 else -1

/-- Function `IPExtractor`.  `anon` is the text of the pseudo-random number
that the fallback branch draws. -/
def IPExtractor (r : Request) (anon : List Char) : List Char :=
  if r.xForwardedFor ≠ [] then
    TrimSpace ((Split r.xForwardedFor ',').headD [])
  else if r.remoteAddr ≠ [] then
    if LastIndex r.remoteAddr ':' ≠ -1 then
      r.remoteAddr.take (LastIndex r.remoteAddr ':').toNat
    else r.remoteAddr
  else "anon-".toList ++ anon

/-- What the handler does with a request: answer through `http.Error` with a
body and a status code, or call `next.ServeHTTP`. -/
inductive Response where
  | error (body : String) (code : ℕ)
  | next
deriving DecidableEq

/-- `http.StatusInternalServerError`. -/
def StatusInternalServerError : ℕ := 500

/-- `http.StatusTooManyRequests`. -/
def StatusTooManyRequests : ℕ := 429

/-- `http.StatusText(http.StatusTooManyRequests)`. -/
def tooManyRequestsText : String := "Too Many Requests"

/-- The handler body after the call to `Allow`, on its two results. -/
def respond {ε : Type} (res : Bool × Option ε) : Response :=
  match res with
  | (_, some _) => .error "internal error" StatusInternalServerError
  | (allowed, none) =>
    if !allowed then .error tooManyRequestsText StatusTooManyRequests
    else .next

/-- The handler that `middleware.New(l, keyPrefix)(next)` builds, run on one
request. -/
def Middleware.New {σ ε : Type} (run : String → ScriptArgs → σ → Except ε ℤ × σ)
    (l : Limiter) (keyPrefix : List Char) (now : ℤ) (anon : List Char) (s : σ)
    (r : Request) : Response × σ :=
  let keyPrefix := if keyPrefix = [] then "ratelimit:".toList else keyPrefix
  let key := keyPrefix ++ IPExtractor r anon
  let res := Allow run l now s (String.mk key) []
  (respond res.1, res.2)

/-! ## Double arithmetic

The script computes in Lua numbers and `New` in `float64`, both IEEE-754
binary64.  The definitions of this section repeat `luaSource` and `New` with
every conversion and every `+`, `-`, `*`, `/` rounded to the nearest double. -/

/-- Rounding of a rational to the nearest integer, ties to the even one. -/
def roundHalfEven (y : ℚ) : ℤ :=
  if y - (⌊y⌋ : ℚ) < 1 / 2 then ⌊y⌋
  else if 1 / 2 < y - (⌊y⌋ : ℚ) then ⌊y⌋ + 1
  else if ⌊y⌋ % 2 = 0 then ⌊y⌋ else ⌊y⌋ + 1

/-- Rounding to the nearest binary64 number, ties to even: a nonzero `x` with
`2^e <= |x| < 2^(e+1)` goes to the nearest multiple of `2^(e-52)`.  The
exponent range is not bounded: there is no overflow and there are no
subnormal numbers.  (A sum, a difference or an integer multiple of doubles
that falls into the subnormal range is exact in binary64, and is its own
rounding here.) -/
def fl (x : ℚ) : ℚ :=
  if x = 0 then 0
  else (roundHalfEven (x / (2 : ℚ) ^ (Int.log 2 |x| - 52)) : ℚ) * (2 : ℚ) ^ (Int.log 2 |x| - 52)

/-- The hash stored under a bucket key, as the two numbers that `tonumber`
is applied to when the fields are read back. -/
structure BucketF64 where
  tokens : ℚ
  timestamp : ℚ
deriving DecidableEq

/-- What one run of the script does in double arithmetic: the `HMSET` it
issues, the `EXPIRE` argument, and the integer it returns. -/
structure EffectF64 where
  stored : BucketF64
  expire : ℤ
  result : ℤ
deriving DecidableEq

/-- The Lua script in double arithmetic.  `tonumber` rounds every argument and
every stored field to a double; `now - ts`, `delta * rate`, `tokens + ...` and
`new_tokens - requested` are rounded; `math.max`, `math.min` and `>=` are
exact. -/
def luaSourceF64 (a : ScriptArgs) (data : Option BucketF64) : EffectF64 :=
  let rate : ℚ := fl a.rate
  let capacity : ℚ := fl a.capacity
  let now : ℚ := fl (a.now : ℚ)
  let requested : ℚ := fl (a.requested : ℚ)
  let tokens : ℚ := match data with
    | none => capacity
    | some b => fl b.tokens
  let ts : ℚ := match data with
    | none => now
    | some b => fl b.timestamp
  let delta : ℚ := max 0 (fl (now - ts))
  let new_tokens : ℚ := min capacity (fl (tokens + fl (delta * rate)))
  let allowed : Bool := decide (requested ≤ new_tokens)
  let new_tokens : ℚ := if allowed then fl (new_tokens - requested) else new_tokens
  { stored := { tokens := new_tokens, timestamp := now }
    expire := a.ttl
    result := if allowed then 1 else 0 }

/-- The token count after the refill and before the debit, in double
arithmetic: `math.min(capacity, tokens + delta * rate)`. -/
def refilledF64 (a : ScriptArgs) (data : Option BucketF64) : ℚ :=
  match data with
  | none => min (fl a.capacity)
      (fl (fl a.capacity + fl (max 0 (fl (fl (a.now : ℚ) - fl (a.now : ℚ))) * fl a.rate)))
  | some b => min (fl a.capacity)
      (fl (fl b.tokens + fl (max 0 (fl (fl (a.now : ℚ) - fl b.timestamp)) * fl a.rate)))

/-- Results of successive runs on one key in double arithmetic, each given as
`(now, requested)`, with no expiry in between. -/
def runResultsF64 (rate capacity : ℚ) (ttl : ℤ) : Option BucketF64 → List (ℤ × ℤ) → List ℤ
  | _, [] => []
  | st, c :: rest =>
    let e := luaSourceF64 ⟨rate, capacity, c.1, c.2, ttl⟩ st
    e.result :: runResultsF64 rate capacity ttl (some e.stored) rest

/-- Bucket state after successive runs on one key in double arithmetic, with
no expiry in between. -/
def runStateF64 (rate capacity : ℚ) (ttl : ℤ) :
    Option BucketF64 → List (ℤ × ℤ) → Option BucketF64
  | st, [] => st
  | st, c :: rest =>
    runStateF64 rate capacity ttl
      (some (luaSourceF64 ⟨rate, capacity, c.1, c.2, ttl⟩ st).stored) rest

/-- Sum of the requested amounts of the runs that returned 1, in double
arithmetic. -/
def allowedSumF64 (rate capacity : ℚ) (ttl : ℤ) : Option BucketF64 → List (ℤ × ℤ) → ℤ
  | _, [] => 0
  | st, c :: rest =>
    let e := luaSourceF64 ⟨rate, capacity, c.1, c.2, ttl⟩ st
    (if e.result = 1 then c.2 else 0) + allowedSumF64 rate capacity ttl (some e.stored) rest

/-- Go `Duration.Seconds` in `float64`: `float64(sec) + float64(nsec) / 1e9`
with both conversions, the division and the sum rounded. -/
def SecondsF64 (d : ℤ) : ℚ :=
  fl (fl ((Int.tdiv d Second : ℤ) : ℚ) + fl (fl ((Int.tmod d Second : ℤ) : ℚ) / 1000000000))

/-- Constructor `New` in `float64`: the field `capacity` is `float64(capacity)`
and the rate is `float64(capacity) / window.Seconds()`, both rounded. -/
def NewF64 (capacity : ℤ) (window : ℤ) : Except String Limiter :=
  if capacity ≤ 0 then
    .error "limiter: capacity must be > 0"
  else if window ≤ 0 then
    .error "limiter: window must be > 0"
  else
    .ok { capacity := fl (capacity : ℚ)
          rate := fl (fl (capacity : ℚ) / SecondsF64 window)
          ttl := wrapInt64 (window * 2) }

/-- Script execution against a store that holds one bucket, in double
arithmetic: the reply is the result of the script and the writes land. -/
def execF64 (_key : String) (a : ScriptArgs) (s : Option BucketF64) :
    Except String ℤ × Option BucketF64 :=
  (.ok (luaSourceF64 a s).result, some (luaSourceF64 a s).stored)

/-! ## Basic facts about one run -/

/-- The refilled token count, before the debit: `math.min(capacity, tokens + delta * rate)`
as the script computes it from the `HMGET` reply. -/
def refilled (a : ScriptArgs) (data : Option Bucket) : ℚ :=
  match data with
  | none => min a.capacity (a.capacity + ((max 0 (a.now - a.now) : ℤ) : ℚ) * a.rate)
  | some b => min a.capacity (b.tokens + ((max 0 (a.now - b.timestamp) : ℤ) : ℚ) * a.rate)

lemma luaSource_eq (a : ScriptArgs) (data : Option Bucket) :
    luaSource a data =
      if (a.requested : ℚ) ≤ refilled a data then
        ⟨⟨refilled a data - (a.requested : ℚ), a.now⟩, a.ttl, 1⟩
      else ⟨⟨refilled a data, a.now⟩, a.ttl, 0⟩ := by
  cases data with
  | none =>
    by_cases h : (a.requested : ℚ) ≤
        min a.capacity (a.capacity + ((max 0 (a.now - a.now) : ℤ) : ℚ) * a.rate)
    · simp only [luaSource, refilled, h, decide_True, if_true]
    · simp only [luaSource, refilled, h, decide_False, if_false, Bool.false_eq_true]
  | some b =>
    by_cases h : (a.requested : ℚ) ≤
        min a.capacity (b.tokens + ((max 0 (a.now - b.timestamp) : ℤ) : ℚ) * a.rate)
    · simp only [luaSource, refilled, h, decide_True, if_true]
    · simp only [luaSource, refilled, h, decide_False, if_false, Bool.false_eq_true]

lemma luaSource_allowed (a : ScriptArgs) (data : Option Bucket)
    (h : (a.requested : ℚ) ≤ refilled a data) :
    luaSource a data =
      ⟨⟨refilled a data - (a.requested : ℚ), a.now⟩, a.ttl, 1⟩ := by
  rw [luaSource_eq, if_pos h]

lemma luaSource_denied (a : ScriptArgs) (data : Option Bucket)
    (h : refilled a data < (a.requested : ℚ)) :
    luaSource a data = ⟨⟨refilled a data, a.now⟩, a.ttl, 0⟩ := by
  rw [luaSource_eq, if_neg (not_le.mpr h)]

lemma refilled_none (a : ScriptArgs) : refilled a none = a.capacity := by
  simp [refilled]

lemma refilled_same_time (a : ScriptArgs) (b : Bucket) (ht : b.timestamp = a.now)
    (hb : b.tokens ≤ a.capacity) : refilled a (some b) = b.tokens := by
  simp [refilled, ht, hb]

/-! ## C1: capacity bound -/

lemma runResults_drained (rate capacity : ℚ) (ttl now : ℤ) (hc : 0 ≤ capacity) (K : ℕ) :
    runResults rate capacity ttl (some ⟨0, now⟩) (List.replicate K (now, 1))
      = List.replicate K 0 := by
  induction K with
  | zero => rfl
  | succ K ih =>
    have hr : refilled ⟨rate, capacity, now, 1, ttl⟩ (some ⟨0, now⟩) = 0 :=
      refilled_same_time _ _ rfl hc
    have hd := luaSource_denied ⟨rate, capacity, now, 1, ttl⟩ (some ⟨0, now⟩)
      (by rw [hr]; norm_num)
    rw [hr] at hd
    simp only [List.replicate_succ, runResults, hd, ih]

lemma runResults_burst (rate capacity : ℚ) (ttl now : ℤ) (K : ℕ) (j : ℕ)
    (hj : (j : ℚ) ≤ capacity) :
    runResults rate capacity ttl (some ⟨(j : ℚ), now⟩) (List.replicate (j + K) (now, 1))
      = List.replicate j 1 ++ List.replicate K 0 := by
  induction j with
  | zero =>
    simpa using runResults_drained rate capacity ttl now (by simpa using hj) K
  | succ j ih =>
    have hj1 : ((j : ℕ) : ℚ) ≤ capacity := by
      have : ((j : ℕ) : ℚ) ≤ ((j + 1 : ℕ) : ℚ) := by push_cast; linarith
      exact le_trans this hj
    have hr : refilled ⟨rate, capacity, now, 1, ttl⟩ (some ⟨((j + 1 : ℕ) : ℚ), now⟩)
        = ((j + 1 : ℕ) : ℚ) := refilled_same_time _ _ rfl hj
    have ha := luaSource_allowed ⟨rate, capacity, now, 1, ttl⟩ (some ⟨((j + 1 : ℕ) : ℚ), now⟩)
      (by rw [hr]; push_cast; linarith [(Nat.cast_nonneg j : (0 : ℚ) ≤ (j : ℚ))])
    rw [hr] at ha
    have hsub : ((j + 1 : ℕ) : ℚ) - ((1 : ℤ) : ℚ) = (j : ℚ) := by push_cast; ring
    rw [hsub] at ha
    have hlen : j + 1 + K = (j + K) + 1 := by omega
    rw [hlen, List.replicate_succ, List.replicate_succ]
    simp only [runResults, ha, ih hj1, List.cons_append]

/-- C1 (capacity bound): from an absent bucket, `capacity + K` successive
single-token runs at one and the same `now` return 1 for the first `capacity`
runs and 0 for every later one. -/
theorem capacity_bound (capacity : ℕ) (hc : 1 ≤ capacity) (rate : ℚ) (_hr : 0 < rate)
    (now ttl : ℤ) (K : ℕ) :
    runResults rate (capacity : ℚ) ttl none (List.replicate (capacity + K) (now, 1))
      = List.replicate capacity 1 ++ List.replicate K 0 := by
  obtain ⟨j, rfl⟩ : ∃ j, capacity = j + 1 := ⟨capacity - 1, by omega⟩
  have hr : refilled ⟨rate, ((j + 1 : ℕ) : ℚ), now, 1, ttl⟩ none = ((j + 1 : ℕ) : ℚ) :=
    refilled_none _
  have ha := luaSource_allowed ⟨rate, ((j + 1 : ℕ) : ℚ), now, 1, ttl⟩ none
    (by rw [hr]; push_cast; linarith [(Nat.cast_nonneg j : (0 : ℚ) ≤ (j : ℚ))])
  rw [hr] at ha
  have hsub : ((j + 1 : ℕ) : ℚ) - ((1 : ℤ) : ℚ) = (j : ℚ) := by push_cast; ring
  rw [hsub] at ha
  have hlen : j + 1 + K = (j + K) + 1 := by omega
  have hj : ((j : ℕ) : ℚ) ≤ ((j + 1 : ℕ) : ℚ) := by push_cast; linarith
  rw [hlen, List.replicate_succ, List.replicate_succ]
  simp only [runResults, ha, runResults_burst rate _ ttl now K j hj, List.cons_append]

/-- Witness of C1 at capacity 3, rate 3, two extra requests (the scenario of
`TestLimiterAllow`). -/
theorem capacity_bound_witness :
    (1 : ℕ) ≤ 3 ∧ (0 : ℚ) < 3 ∧
    runResults 3 ((3 : ℕ) : ℚ) 2 none (List.replicate (3 + 2) (100, 1))
      = List.replicate 3 1 ++ List.replicate 2 0 :=
  ⟨by decide, by norm_num, capacity_bound 3 (by decide) 3 (by norm_num) 100 2 2⟩

/-! ## Bounds on one run -/

lemma delta_nonneg (x y : ℤ) : (0 : ℚ) ≤ ((max 0 (x - y) : ℤ) : ℚ) := by
  exact_mod_cast le_max_left 0 (x - y)

lemma refilled_le_capacity (a : ScriptArgs) (data : Option Bucket) :
    refilled a data ≤ a.capacity := by
  cases data <;> exact min_le_left _ _

lemma refilled_nonneg (a : ScriptArgs) (data : Option Bucket) (hc : 0 ≤ a.capacity)
    (hr : 0 ≤ a.rate) (hd : ∀ b, data = some b → 0 ≤ b.tokens) :
    0 ≤ refilled a data := by
  cases data with
  | none =>
    exact le_min hc (add_nonneg hc (mul_nonneg (delta_nonneg _ _) hr))
  | some b =>
    exact le_min hc (add_nonneg (hd b rfl) (mul_nonneg (delta_nonneg _ _) hr))

lemma stored_tokens_eq (a : ScriptArgs) (data : Option Bucket) :
    (luaSource a data).stored.tokens =
      if (a.requested : ℚ) ≤ refilled a data then refilled a data - (a.requested : ℚ)
      else refilled a data := by
  rw [luaSource_eq]; split_ifs <;> rfl

lemma result_eq (a : ScriptArgs) (data : Option Bucket) :
    (luaSource a data).result = if (a.requested : ℚ) ≤ refilled a data then 1 else 0 := by
  rw [luaSource_eq]; split_ifs <;> rfl

lemma stored_timestamp_eq (a : ScriptArgs) (data : Option Bucket) :
    (luaSource a data).stored.timestamp = a.now := by
  rw [luaSource_eq]; split_ifs <;> rfl

lemma stored_tokens_range (a : ScriptArgs) (data : Option Bucket) (hc : 0 ≤ a.capacity)
    (hr : 0 ≤ a.rate) (hq : 0 ≤ a.requested) (hd : ∀ b, data = some b → 0 ≤ b.tokens) :
    0 ≤ (luaSource a data).stored.tokens ∧ (luaSource a data).stored.tokens ≤ a.capacity := by
  have h0 := refilled_nonneg a data hc hr hd
  have h1 := refilled_le_capacity a data
  have hq2 : (0 : ℚ) ≤ (a.requested : ℚ) := by exact_mod_cast hq
  rw [stored_tokens_eq]
  split_ifs with h
  · exact ⟨by linarith, by linarith⟩
  · exact ⟨h0, h1⟩

/-! ## C3: the stored timestamp -/

/-- C3, as stated, fails: on the present bucket `(tokens = 0, timestamp = 10)`
a run with `now = 5` stores timestamp 5, which is earlier than the 10 it read. -/
theorem monotone_timestamp_counterexample :
    (luaSource ⟨1, 3, 5, 1, 2⟩ (some ⟨0, 10⟩)).stored.timestamp = 5 ∧
    ¬ ((⟨0, 10⟩ : Bucket).timestamp ≤
        (luaSource ⟨1, 3, 5, 1, 2⟩ (some ⟨0, 10⟩)).stored.timestamp) := by
  rw [stored_timestamp_eq]
  exact ⟨rfl, by decide⟩

/-- C3 (amended): the timestamp a run stores is the `now` it was given,
whatever it read; so it is at least the timestamp it read exactly when `now`
is, and a run on an absent bucket stores `now` as well. -/
theorem stored_timestamp_is_now (a : ScriptArgs) (b : Bucket) :
    (luaSource a (some b)).stored.timestamp = a.now ∧
    (luaSource a none).stored.timestamp = a.now ∧
    (b.timestamp ≤ (luaSource a (some b)).stored.timestamp ↔ b.timestamp ≤ a.now) := by
  rw [stored_timestamp_eq, stored_timestamp_eq]
  exact ⟨rfl, rfl, Iff.rfl⟩

/-! ## C4: token range invariant -/

lemma runState_range (rate capacity : ℚ) (ttl : ℤ) (hc : 0 < capacity) (hr : 0 ≤ rate) :
    ∀ (calls : List (ℤ × ℤ)) (st : Option Bucket),
      (∀ b, st = some b → 0 ≤ b.tokens ∧ b.tokens ≤ capacity) →
      (∀ x ∈ calls, 1 ≤ x.2) →
      ∀ b, runState rate capacity ttl st calls = some b → 0 ≤ b.tokens ∧ b.tokens ≤ capacity := by
  intro calls
  induction calls with
  | nil =>
    intro st hst _ b hb
    exact hst b hb
  | cons c rest ih =>
    intro st hst hq b hb
    have hcq : 1 ≤ c.2 := hq c (by simp)
    have hstep := stored_tokens_range ⟨rate, capacity, c.1, c.2, ttl⟩ st (le_of_lt hc) hr
      (le_trans (by decide) hcq) (fun b2 h2 => (hst b2 h2).1)
    refine ih (some (luaSource ⟨rate, capacity, c.1, c.2, ttl⟩ st).stored) ?_
      (fun x hx => hq x (by simp [hx])) b hb
    intro b2 h2
    cases h2
    exact hstep

/-- C4 (token range invariant): with `capacity > 0`, `rate >= 0` and
`requested >= 1`, a run on an absent bucket or on a present one with
`0 <= tokens <= capacity` stores tokens in `[0, capacity]`; hence every state
reached from an absent bucket by such runs has tokens in `[0, capacity]`. -/
theorem token_range_invariant (rate capacity : ℚ) (ttl : ℤ) (hc : 0 < capacity)
    (hr : 0 ≤ rate) :
    (∀ (now requested : ℤ) (data : Option Bucket), 1 ≤ requested →
      (∀ b, data = some b → 0 ≤ b.tokens ∧ b.tokens ≤ capacity) →
      0 ≤ (luaSource ⟨rate, capacity, now, requested, ttl⟩ data).stored.tokens ∧
      (luaSource ⟨rate, capacity, now, requested, ttl⟩ data).stored.tokens ≤ capacity) ∧
    (∀ (calls : List (ℤ × ℤ)), (∀ x ∈ calls, 1 ≤ x.2) →
      ∀ b, runState rate capacity ttl none calls = some b →
        0 ≤ b.tokens ∧ b.tokens ≤ capacity) := by
  constructor
  · intro now requested data hq hd
    exact stored_tokens_range ⟨rate, capacity, now, requested, ttl⟩ data (le_of_lt hc) hr
      (le_trans (by decide) hq) (fun b h => (hd b h).1)
  · intro calls hq b hb
    exact runState_range rate capacity ttl hc hr calls none (fun b2 h2 => by cases h2) hq b hb

/-- Witness of C4: capacity 3, rate 3/2, a two-token request at time 7 on
the bucket `(tokens = 1/2, timestamp = 6)`. -/
theorem token_range_invariant_witness :
    (0 : ℚ) < 3 ∧ (0 : ℚ) ≤ 3 / 2 ∧
    0 ≤ (luaSource ⟨3 / 2, 3, 7, 2, 2⟩ (some ⟨1 / 2, 6⟩)).stored.tokens ∧
    (luaSource ⟨3 / 2, 3, 7, 2, 2⟩ (some ⟨1 / 2, 6⟩)).stored.tokens ≤ 3 :=
  ⟨by norm_num, by norm_num,
   (token_range_invariant (3 / 2) 3 2 (by norm_num) (by norm_num)).1 7 2 (some ⟨1 / 2, 6⟩)
     (by decide) (fun b h => by cases h; constructor <;> norm_num)⟩

/-! ## C5: refill after a denial

The amended statement is proved in the part on double arithmetic. -/

/-- C5, as stated, fails: with capacity 1 and rate 1/2 (window 2 s), requests at
times 0 and 1 are allowed and denied, the denial leaves `(tokens = 1/2,
timestamp = 1)`, and after `t = 1` more second the next request is allowed,
although `min(capacity, floor(t * rate)) = 0`. -/
theorem refill_linearity_counterexample :
    runResults (1 / 2) ((1 : ℕ) : ℚ) 4 none [(0, 1), (1, 1)] = [1, 0] ∧
    runState (1 / 2) ((1 : ℕ) : ℚ) 4 none [(0, 1), (1, 1)] = some ⟨1 / 2, 1⟩ ∧
    min (1 : ℤ) ⌊((1 : ℕ) : ℚ) * (1 / 2)⌋ = 0 ∧
    runResults (1 / 2) ((1 : ℕ) : ℚ) 4 (some ⟨1 / 2, 1⟩) [(1 + 1, 1)] = [1] := by
  refine ⟨?_, ?_, ?_, ?_⟩
  · norm_num [runResults, luaSource]
  · norm_num [runState, luaSource]
  · norm_num
  · norm_num [runResults, luaSource]

/-! ## C6: a bucket idle for two windows behaves as an absent one -/

lemma Seconds_eq (d : ℤ) : Seconds d = (d : ℚ) / 1000000000 := by
  have h := Int.tdiv_add_tmod d Second
  have hq : ((Second * Int.tdiv d Second + Int.tmod d Second : ℤ) : ℚ) = (d : ℚ) := by
    rw [h]
  simp only [Second] at hq
  push_cast at hq
  unfold Seconds
  simp only [Second]
  field_simp
  linarith

lemma Seconds_pos (d : ℤ) (hd : 0 < d) : 0 < Seconds d := by
  rw [Seconds_eq]
  have : (0 : ℚ) < (d : ℚ) := by exact_mod_cast hd
  positivity

lemma New_ok (capacity window : ℤ) (hc : 0 < capacity) (hw : 0 < window) :
    New capacity window = .ok
      { capacity := (capacity : ℚ)
        rate := (capacity : ℚ) / Seconds window
        ttl := wrapInt64 (window * 2) } := by
  unfold New
  rw [if_neg (not_le.mpr hc), if_neg (not_le.mpr hw)]

/-- C6 (expiry is behaviour-preserving): for a limiter built by `New`, a run on
a present bucket with `0 <= tokens <= capacity` whose timestamp lies at least
`2 * window` before `now` has the same result and the same writes as the run
with the same arguments on an absent bucket. -/
theorem expiry_behaviour_preserving (capacity window : ℤ) (l : Limiter)
    (hnew : New capacity window = .ok l) (hc : 1 ≤ capacity) (hw : 0 < window)
    (b : Bucket) (hb0 : 0 ≤ b.tokens) (_hb1 : b.tokens ≤ l.capacity)
    (n : ℤ) (_hn : 1 ≤ n) (now : ℤ)
    (hidle : 2 * Seconds window ≤ ((now - b.timestamp : ℤ) : ℚ)) :
    luaSource (scriptArgs l now n) (some b) = luaSource (scriptArgs l now n) none := by
  rw [New_ok capacity window (by omega) hw] at hnew
  have hl : l = { capacity := (capacity : ℚ)
                  rate := (capacity : ℚ) / Seconds window
                  ttl := wrapInt64 (window * 2) } := by
    injection hnew with h; exact h.symm
  have hW := Seconds_pos window hw
  have hcq : (1 : ℚ) ≤ (capacity : ℚ) := by exact_mod_cast hc
  have hdpos : (0 : ℚ) ≤ ((now - b.timestamp : ℤ) : ℚ) := by linarith
  have hdint : (0 : ℤ) ≤ now - b.timestamp := by exact_mod_cast hdpos
  have hmax : max 0 (now - b.timestamp) = now - b.timestamp := max_eq_right hdint
  have hfill : (capacity : ℚ) ≤
      b.tokens + ((now - b.timestamp : ℤ) : ℚ) * ((capacity : ℚ) / Seconds window) := by
    have h1 : 2 * (capacity : ℚ) ≤
        ((now - b.timestamp : ℤ) : ℚ) * ((capacity : ℚ) / Seconds window) := by
      have h2 : (2 * Seconds window) * ((capacity : ℚ) / Seconds window) ≤
          ((now - b.timestamp : ℤ) : ℚ) * ((capacity : ℚ) / Seconds window) :=
        mul_le_mul_of_nonneg_right hidle (by positivity)
      have h3 : (2 * Seconds window) * ((capacity : ℚ) / Seconds window) = 2 * (capacity : ℚ) := by
        field_simp
        ring
      linarith
    linarith
  have hsome : refilled (scriptArgs l now n) (some b) = (capacity : ℚ) := by
    simp only [refilled, scriptArgs, hl, hmax]
    exact min_eq_left hfill
  have hnone : refilled (scriptArgs l now n) none = (capacity : ℚ) := by
    rw [refilled_none]; simp only [scriptArgs, hl]
  rw [luaSource_eq, luaSource_eq, hsome, hnone]

/-- Witness of C6: capacity 3, window 1 s, the bucket `(tokens = 1/2,
timestamp = 10)` read at `now = 12`. -/
theorem expiry_behaviour_preserving_witness :
    New 3 1000000000 = .ok ⟨3, 3 / Seconds 1000000000, wrapInt64 (1000000000 * 2)⟩ ∧
    luaSource (scriptArgs ⟨3, 3 / Seconds 1000000000, wrapInt64 (1000000000 * 2)⟩ 12 1)
        (some ⟨1 / 2, 10⟩)
      = luaSource (scriptArgs ⟨3, 3 / Seconds 1000000000, wrapInt64 (1000000000 * 2)⟩ 12 1)
        none :=
  ⟨by simp [New],
   expiry_behaviour_preserving 3 1000000000
     ⟨3, 3 / Seconds 1000000000, wrapInt64 (1000000000 * 2)⟩ (by simp [New]) (by decide)
     (by decide) ⟨1 / 2, 10⟩ (by norm_num) (by norm_num) 1 (by decide) 12
     (by rw [Seconds_eq]; norm_num)⟩

/-! ## C7: the TTL handed to the script -/

/-- C7 at a failing input: for `New(client, 3, 300 * time.Millisecond)` the
limiter holds `ttl = 600 ms`, but `int(ttl.Seconds())` is 0, so every run
issues `EXPIRE key 0` instead of an expiry of `2 * window`. -/
theorem idle_ttl_subsecond_window :
    New 3 300000000 = .ok ⟨3, 3 / Seconds 300000000, 600000000⟩ ∧
    (scriptArgs ⟨3, 3 / Seconds 300000000, 600000000⟩ 100 1).ttl = 0 ∧
    (luaSource (scriptArgs ⟨3, 3 / Seconds 300000000, 600000000⟩ 100 1) none).expire = 0 := by
  have httl : truncToInt (Seconds 600000000) = 0 := by
    rw [Seconds_eq]
    have h0 : (0 : ℚ) ≤ ((600000000 : ℤ) : ℚ) / 1000000000 := by norm_num
    unfold truncToInt
    rw [if_pos h0, Int.floor_eq_zero_iff]
    constructor <;> norm_num
  refine ⟨?_, ?_, ?_⟩
  · rw [New_ok 3 300000000 (by decide) (by decide)]
    norm_num [wrapInt64]
  · simpa [scriptArgs] using httl
  · rw [luaSource_eq]
    split_ifs <;> simpa [scriptArgs] using httl

/-! ## C8: requests for no tokens -/

/-- C8 (zero-cost no-op): for a token count `n <= 0`, `Allow` returns
`(true, nil)` and hands back the store state it was given, whatever the store
operation would have done (fail, count the call, write keys). -/
theorem allow_nonpositive_noop {σ ε : Type} (run : String → ScriptArgs → σ → Except ε ℤ × σ)
    (l : Limiter) (now : ℤ) (s : σ) (key : String) (n : ℤ) (rest : List ℤ) (hn : n ≤ 0) :
    Allow run l now s key (n :: rest) = ((true, none), s) := by
  simp only [Allow, if_pos hn]

/-- Witness of C8: a zero-token request against a store that fails every
operation. -/
theorem allow_nonpositive_noop_witness :
    Allow Store.exec ⟨3, 3, 2000000000⟩ 100 (Store.broken "down") "k" [0]
      = ((true, none), Store.broken "down") :=
  allow_nonpositive_noop Store.exec ⟨3, 3, 2000000000⟩ 100 (Store.broken "down") "k" 0 []
    (le_refl 0)

/-! ## C9: store faults -/

/-- C9 (store faults are surfaced): for a token count `n >= 1` (`n = 1` when
none is given), `Allow` returns `(false, err)` with the store error when the
script execution fails, `(r = 1, nil)` when it succeeds with reply `r`, and so
a non-nil error exactly when the execution fails; the script replies 1 exactly
when it allowed the request. -/
theorem allow_surfaces_store_result {σ ε : Type}
    (run : String → ScriptArgs → σ → Except ε ℤ × σ)
    (l : Limiter) (now : ℤ) (s : σ) (key : String) (tokens : List ℤ)
    (hn : 1 ≤ tokens.headD 1) :
    (∀ err s1, run key (scriptArgs l now (tokens.headD 1)) s = (.error err, s1) →
      Allow run l now s key tokens = ((false, some err), s1)) ∧
    (∀ r s1, run key (scriptArgs l now (tokens.headD 1)) s = (.ok r, s1) →
      Allow run l now s key tokens = ((decide (r = 1), none), s1)) ∧
    ((Allow run l now s key tokens).1.2 ≠ none ↔
      ∃ err s1, run key (scriptArgs l now (tokens.headD 1)) s = (.error err, s1)) ∧
    (∀ data, (luaSource (scriptArgs l now (tokens.headD 1)) data).result = 1 ↔
      ((tokens.headD 1 : ℤ) : ℚ) ≤ refilled (scriptArgs l now (tokens.headD 1)) data) := by
  have hpos : ¬ tokens.headD 1 ≤ 0 := by omega
  have hA : Allow run l now s key tokens =
      match run key (scriptArgs l now (tokens.headD 1)) s with
      | (.error err, s1) => ((false, some err), s1)
      | (.ok res, s1) => ((decide (res = 1), none), s1) := by
    cases tokens with
    | nil => simp only [Allow, List.headD_nil] at hpos ⊢; rw [if_neg hpos]
    | cons t ts => simp only [Allow, List.headD_cons] at hpos ⊢; rw [if_neg hpos]
  refine ⟨?_, ?_, ?_, ?_⟩
  · intro err s1 h
    rw [hA, h]
  · intro r s1 h
    rw [hA, h]
  · rw [hA]
    rcases hrun : run key (scriptArgs l now (tokens.headD 1)) s with ⟨res, s1⟩
    cases res with
    | error err => simp
    | ok r => simp
  · intro data
    rw [result_eq]
    have e : (scriptArgs l now (tokens.headD 1)).requested = tokens.headD 1 := rfl
    rw [e]
    split_ifs with h
    · exact ⟨fun _ => h, fun _ => rfl⟩
    · exact ⟨fun h1 => absurd h1 (by decide), fun h2 => absurd h2 h⟩

/-- Witness of C9: the default single-token request against a store that
fails with "down". -/
theorem allow_surfaces_store_result_witness :
    Allow Store.exec ⟨3, 3, 2000000000⟩ 100 (Store.broken "down") "k" []
      = ((false, some "down"), { Store.broken "down" with evals := 1 }) :=
  (allow_surfaces_store_result Store.exec ⟨3, 3, 2000000000⟩ 100 (Store.broken "down") "k" []
    (by decide)).1 "down" { Store.broken "down" with evals := 1 } rfl

/-! ## C12: middleware outcomes -/

/-- C12 (middleware outcomes): the handler answers with what `respond` makes
of the result of `Allow`; an error gives status 500 whatever the boolean,
`(false, nil)` gives status 429, and the next handler is called exactly on
`(true, nil)`. -/
theorem middleware_outcomes {σ ε : Type} (run : String → ScriptArgs → σ → Except ε ℤ × σ)
    (l : Limiter) (keyPrefix : List Char) (now : ℤ) (anon : List Char) (s : σ) (r : Request) :
    (Middleware.New run l keyPrefix now anon s r).1 =
      respond (Allow run l now s
        (String.mk ((if keyPrefix = [] then "ratelimit:".toList else keyPrefix)
          ++ IPExtractor r anon)) []).1 ∧
    (∀ (b : Bool) (e : ε), respond (b, some e) = Response.error "internal error" 500) ∧
    respond ((false, none) : Bool × Option ε) = Response.error "Too Many Requests" 429 ∧
    (∀ res : Bool × Option ε, respond res = Response.next ↔ res = (true, none)) := by
  refine ⟨rfl, fun b e => rfl, rfl, ?_⟩
  rintro ⟨b, e⟩
  cases e with
  | some err => simp [respond]
  | none => cases b <;> simp [respond]

/-! ## C13: a denied probe -/

lemma min_min_add (c A B : ℚ) (hB : 0 ≤ B) : min c (min c A + B) = min c (A + B) := by
  rcases le_total c A with h | h
  · rw [min_eq_left h, min_eq_left (by linarith), min_eq_left (by linarith)]
  · rw [min_eq_right h]

lemma result_zero_iff (a : ScriptArgs) (data : Option Bucket) :
    (luaSource a data).result = 0 ↔ refilled a data < (a.requested : ℚ) := by
  rw [result_eq]
  split_ifs with h
  · exact ⟨fun h1 => absurd h1 (by decide), fun h2 => absurd h (not_le.mpr h2)⟩
  · exact ⟨fun _ => not_le.mp h, fun _ => rfl⟩

/-! ## C14: no token regression -/

/-- C14 (no token regression): on a present bucket with `tokens <= capacity`
and `rate >= 0`, for every `now`, the refilled count
`min(capacity, tokens + max(0, now - timestamp) * rate)` is at least the stored
tokens; a denied run stores at least the tokens it read, and an allowed run
stores at least those tokens less the requested amount. -/
theorem no_token_regression (a : ScriptArgs) (b : Bucket) (hb : b.tokens ≤ a.capacity)
    (hr : 0 ≤ a.rate) :
    b.tokens ≤ min a.capacity (b.tokens + ((max 0 (a.now - b.timestamp) : ℤ) : ℚ) * a.rate) ∧
    ((luaSource a (some b)).result = 0 → b.tokens ≤ (luaSource a (some b)).stored.tokens) ∧
    ((luaSource a (some b)).result = 1 →
      b.tokens - (a.requested : ℚ) ≤ (luaSource a (some b)).stored.tokens) := by
  have hfill : b.tokens ≤ refilled a (some b) :=
    le_min hb (le_add_of_nonneg_right (mul_nonneg (delta_nonneg _ _) hr))
  refine ⟨hfill, ?_, ?_⟩
  · intro h0
    rw [luaSource_denied a (some b) ((result_zero_iff a (some b)).mp h0)]
    exact hfill
  · intro h1
    have hle : (a.requested : ℚ) ≤ refilled a (some b) := by
      by_contra hcon
      rw [result_eq, if_neg hcon] at h1
      exact absurd h1 (by decide)
    rw [luaSource_allowed a (some b) hle]
    show b.tokens - (a.requested : ℚ) ≤ refilled a (some b) - (a.requested : ℚ)
    linarith

/-- Witness of C14: capacity 3, rate 1, the bucket `(tokens = 2, timestamp =
10)` read with the earlier `now = 5`. -/
theorem no_token_regression_witness :
    (2 : ℚ) ≤ min 3 (2 + ((max 0 (5 - 10) : ℤ) : ℚ) * 1) ∧
    ((luaSource ⟨1, 3, 5, 1, 2⟩ (some ⟨2, 10⟩)).result = 0 →
      (2 : ℚ) ≤ (luaSource ⟨1, 3, 5, 1, 2⟩ (some ⟨2, 10⟩)).stored.tokens) ∧
    ((luaSource ⟨1, 3, 5, 1, 2⟩ (some ⟨2, 10⟩)).result = 1 →
      (2 : ℚ) - ((1 : ℤ) : ℚ) ≤ (luaSource ⟨1, 3, 5, 1, 2⟩ (some ⟨2, 10⟩)).stored.tokens) :=
  no_token_regression ⟨1, 3, 5, 1, 2⟩ ⟨2, 10⟩ (by norm_num) (by norm_num)

/-! ## C15: rate bound when `now` is not monotone

The amended statement is proved in the part on double arithmetic. -/

/-- C15, as stated, fails: with capacity 1 and rate 1, single-token runs at
times 1, 0, 1, 0, 1 are allowed, denied, allowed, denied, allowed; the allowed
total 3 exceeds `capacity + rate * (max now - min now) = 2`. -/
theorem skewed_rate_bound_counterexample :
    runResults 1 1 2 none [(1, 1), (0, 1), (1, 1), (0, 1), (1, 1)] = [1, 0, 1, 0, 1] ∧
    allowedSum 1 1 2 none [(1, 1), (0, 1), (1, 1), (0, 1), (1, 1)] = 3 ∧
    ¬ ((allowedSum 1 1 2 none [(1, 1), (0, 1), (1, 1), (0, 1), (1, 1)] : ℚ) ≤
        1 + 1 * ((maxNow 1 [(0, 1), (1, 1), (0, 1), (1, 1)] : ℚ)
          - (minNow 1 [(0, 1), (1, 1), (0, 1), (1, 1)] : ℚ))) := by
  have hsum : allowedSum 1 1 2 none [(1, 1), (0, 1), (1, 1), (0, 1), (1, 1)] = 3 := by
    norm_num [allowedSum, luaSource]
  refine ⟨?_, hsum, ?_⟩
  · norm_num [runResults, luaSource]
  · rw [hsum]
    norm_num [maxNow, minNow]

/-! ## C17: client identity extraction -/

lemma Split_headD (s : List Char) (sep : Char) :
    (Split s sep).headD [] = s.takeWhile (fun c => decide (c ≠ sep)) := by
  induction s with
  | nil => rfl
  | cons c cs ih =>
    by_cases h : c = sep
    · simp [Split, h]
    · have htw : (c :: cs).takeWhile (fun c => decide (c ≠ sep))
          = c :: cs.takeWhile (fun c => decide (c ≠ sep)) := by
        simp [List.takeWhile_cons, h]
      rw [htw, ← ih]
      simp only [Split, if_neg h]
      cases Split cs sep with
      | nil => rfl
      | cons p ps => rfl

lemma dropWhile_eq_TrimSpace_append (s : List Char) :
    s.dropWhile isSpace
      = TrimSpace s ++ ((s.dropWhile isSpace).reverse.takeWhile isSpace).reverse := by
  have h2 := List.takeWhile_append_dropWhile isSpace (s.dropWhile isSpace).reverse
  have h3 := congrArg List.reverse h2
  simp only [List.reverse_append, List.reverse_reverse] at h3
  exact h3.symm

/-- What `TrimSpace` cuts off is white space, at both ends. -/
lemma TrimSpace_decomp (s : List Char) :
    ∃ pre post, s = pre ++ TrimSpace s ++ post ∧
      (∀ c ∈ pre, isSpace c = true) ∧ (∀ c ∈ post, isSpace c = true) := by
  refine ⟨s.takeWhile isSpace, ((s.dropWhile isSpace).reverse.takeWhile isSpace).reverse,
    ?_, ?_, ?_⟩
  · rw [List.append_assoc, ← dropWhile_eq_TrimSpace_append, List.takeWhile_append_dropWhile]
  · intro c hc
    exact List.mem_takeWhile_imp hc
  · intro c hc
    exact List.mem_takeWhile_imp (List.mem_reverse.mp hc)

lemma TrimSpace_head (s : List Char) (c : Char) (hc : (TrimSpace s).head? = some c) :
    isSpace c = false := by
  have hd := List.head?_dropWhile_not isSpace s
  rw [dropWhile_eq_TrimSpace_append, List.head?_append, hc] at hd
  simpa using hd

lemma TrimSpace_getLast (s : List Char) (c : Char) (hc : (TrimSpace s).getLast? = some c) :
    isSpace c = false := by
  have hd := List.head?_dropWhile_not isSpace (s.dropWhile isSpace).reverse
  unfold TrimSpace at hc
  rw [List.getLast?_reverse] at hc
  rw [hc] at hd
  exact hd

lemma LastIndex_of_not_mem (s : List Char) (c : Char) (h : c ∉ s) : LastIndex s c = -1 := by
  induction s with
  | nil => rfl
  | cons x xs ih =>
    have hx : ¬ x = c := fun e => h (by simp [e])
    have hxs : c ∉ xs := fun e => h (by simp [e])
    simp [LastIndex, ih hxs, hx]

lemma LastIndex_append (host port : List Char) (c : Char) (h : c ∉ port) :
    LastIndex (host ++ c :: port) c = (host.length : ℤ) := by
  induction host with
  | nil => simp [LastIndex, LastIndex_of_not_mem port c h]
  | cons x xs ih =>
    have hne : (xs.length : ℤ) ≠ -1 := by omega
    have hstep : LastIndex (x :: (xs ++ c :: port)) c =
        if LastIndex (xs ++ c :: port) c ≠ -1 then LastIndex (xs ++ c :: port) c + 1
        else if x = c then 0 else -1 := rfl
    rw [List.cons_append, hstep, ih, if_pos hne, List.length_cons]
    push_cast
    ring

/-- The text before the first `sep` of `s`: it holds no `sep`, and what
follows it in `s` is nothing or starts with `sep`. -/
lemma takeWhile_ne_first_entry (s : List Char) (sep : Char) :
    ∃ rest, s = s.takeWhile (fun c => decide (c ≠ sep)) ++ rest ∧
      sep ∉ s.takeWhile (fun c => decide (c ≠ sep)) ∧
      (rest = [] ∨ rest.head? = some sep) := by
  refine ⟨s.dropWhile (fun c => decide (c ≠ sep)),
    (List.takeWhile_append_dropWhile _ s).symm, ?_, ?_⟩
  · intro hmem
    have := List.mem_takeWhile_imp hmem
    simp at this
  · have hd := List.head?_dropWhile_not (fun c => decide (c ≠ sep)) s
    cases hrest : s.dropWhile (fun c => decide (c ≠ sep)) with
    | nil => exact Or.inl rfl
    | cons x xs =>
      right
      rw [hrest] at hd
      simp at hd
      simp [hd]

/-- C17 (client identity extraction): with a non-empty `X-Forwarded-For`,
`IPExtractor` returns the header text before its first comma with the white
space at both ends cut off, whatever `RemoteAddr` is; with an empty header
and `RemoteAddr = host:port`, `port` free of colons, it returns `host`; with
an empty header and a non-empty `RemoteAddr` without a colon, it returns
`RemoteAddr`. -/
theorem ip_extractor_spec (r : Request) (anon : List Char) :
    (r.xForwardedFor ≠ [] →
      IPExtractor r anon = TrimSpace (r.xForwardedFor.takeWhile (fun c => decide (c ≠ ','))) ∧
      (∃ rest, r.xForwardedFor = r.xForwardedFor.takeWhile (fun c => decide (c ≠ ',')) ++ rest ∧
        ',' ∉ r.xForwardedFor.takeWhile (fun c => decide (c ≠ ',')) ∧
        (rest = [] ∨ rest.head? = some ',')) ∧
      (∃ pre post,
        r.xForwardedFor.takeWhile (fun c => decide (c ≠ ',')) = pre ++ IPExtractor r anon ++ post ∧
        (∀ c ∈ pre, isSpace c = true) ∧ (∀ c ∈ post, isSpace c = true)) ∧
      (∀ c, (IPExtractor r anon).head? = some c → isSpace c = false) ∧
      (∀ c, (IPExtractor r anon).getLast? = some c → isSpace c = false)) ∧
    (r.xForwardedFor = [] → ∀ host port : List Char, ':' ∉ port →
      r.remoteAddr = host ++ ':' :: port → IPExtractor r anon = host) ∧
    (r.xForwardedFor = [] → r.remoteAddr ≠ [] → ':' ∉ r.remoteAddr →
      IPExtractor r anon = r.remoteAddr) := by
  refine ⟨?_, ?_, ?_⟩
  · intro hxf
    have hval : IPExtractor r anon
        = TrimSpace (r.xForwardedFor.takeWhile (fun c => decide (c ≠ ','))) := by
      unfold IPExtractor
      rw [if_pos hxf, Split_headD]
    rw [hval]
    exact ⟨rfl, takeWhile_ne_first_entry _ _, TrimSpace_decomp _,
      TrimSpace_head _, TrimSpace_getLast _⟩
  · intro hxf host port hport hra
    have hidx := LastIndex_append host port ':' hport
    have hne : LastIndex (host ++ ':' :: port) ':' ≠ -1 := by rw [hidx]; omega
    have hnil : ¬ (host ++ ':' :: port) = [] := by simp
    have hxf2 : ¬ r.xForwardedFor ≠ [] := fun h => h hxf
    unfold IPExtractor
    rw [if_neg hxf2, hra, if_pos hnil, if_pos hne, hidx, Int.toNat_natCast,
      List.take_left]
  · intro hxf hra hcolon
    have hxf2 : ¬ r.xForwardedFor ≠ [] := fun h => h hxf
    have hidx := LastIndex_of_not_mem r.remoteAddr ':' hcolon
    have hne : ¬ LastIndex r.remoteAddr ':' ≠ -1 := fun h => h hidx
    unfold IPExtractor
    rw [if_neg hxf2, if_pos hra, if_neg hne]

/-- Witness of C17: the header ` a ,b` gives `a`; with no header the address
`h:1` gives `h`, and so does the address `h`. -/
theorem ip_extractor_spec_witness :
    IPExtractor ⟨[' ', 'a', ' ', ',', 'b'], ['h', ':', '1']⟩ []
      = TrimSpace ([' ', 'a', ' ', ',', 'b'].takeWhile (fun c => decide (c ≠ ','))) ∧
    TrimSpace ([' ', 'a', ' ', ',', 'b'].takeWhile (fun c => decide (c ≠ ','))) = ['a'] ∧
    IPExtractor ⟨[], ['h', ':', '1']⟩ [] = ['h'] ∧
    IPExtractor ⟨[], ['h']⟩ [] = ['h'] :=
  ⟨((ip_extractor_spec ⟨[' ', 'a', ' ', ',', 'b'], ['h', ':', '1']⟩ []).1 (by simp)).1,
   by decide,
   (ip_extractor_spec ⟨[], ['h', ':', '1']⟩ []).2.1 rfl ['h'] ['1'] (by decide) rfl,
   (ip_extractor_spec ⟨[], ['h']⟩ []).2.2 rfl (by simp) (by decide)⟩

/-! # The bucket procedure in double arithmetic

C2, C5, C10, C13, C15 and C16 speak of quantities that the program rounds:
the refill `tokens + delta * rate`, the rate `capacity / window.Seconds()` and
the comparison of `requested` with the refilled count.  They are settled on
`luaSourceF64` and `NewF64`. -/

/-! ## Rounding -/

lemma roundHalfEven_sub_le (y : ℚ) : |(roundHalfEven y : ℚ) - y| ≤ 1 / 2 := by
  have h1 := Int.floor_le y
  have h2 := Int.lt_floor_add_one y
  unfold roundHalfEven
  split_ifs with h3 h4 h5
  · rw [abs_le]; constructor <;> linarith
  · rw [abs_le]; push_cast; constructor <;> linarith
  · rw [abs_le]; constructor <;> linarith
  · rw [abs_le]; push_cast; constructor <;> linarith

lemma roundHalfEven_eq_of_abs_lt (y : ℚ) (n : ℤ) (h : |y - (n : ℚ)| < 1 / 2) :
    roundHalfEven y = n := by
  have h0 := roundHalfEven_sub_le y
  rw [abs_lt] at h
  rw [abs_le] at h0
  have : |((roundHalfEven y - n : ℤ) : ℚ)| < 1 := by
    rw [abs_lt]; push_cast; constructor <;> linarith
  have h3 : |roundHalfEven y - n| < 1 := by exact_mod_cast this
  have := Int.abs_lt_one_iff.mp h3
  omega

lemma roundHalfEven_intCast (n : ℤ) : roundHalfEven (n : ℚ) = n :=
  roundHalfEven_eq_of_abs_lt _ n (by simp)

lemma roundHalfEven_tie_even (y : ℚ) (n : ℤ) (h : y = (n : ℚ) + 1 / 2) (he : n % 2 = 0) :
    roundHalfEven y = n := by
  have hf : ⌊y⌋ = n := by
    rw [Int.floor_eq_iff]; constructor <;> rw [h] <;> linarith
  unfold roundHalfEven
  rw [hf, h]
  norm_num [he]

lemma roundHalfEven_tie_odd (y : ℚ) (n : ℤ) (h : y = (n : ℚ) + 1 / 2) (he : n % 2 = 1) :
    roundHalfEven y = n + 1 := by
  have hf : ⌊y⌋ = n := by
    rw [Int.floor_eq_iff]; constructor <;> rw [h] <;> linarith
  unfold roundHalfEven
  rw [hf, h]
  norm_num [he]

lemma roundHalfEven_le_of_le (y : ℚ) (n : ℤ) (h : y ≤ (n : ℚ)) : roundHalfEven y ≤ n := by
  by_contra hcon
  have h1 : n + 1 ≤ roundHalfEven y := by omega
  have h2 : ((n : ℚ)) + 1 ≤ (roundHalfEven y : ℚ) := by exact_mod_cast h1
  have h0 := roundHalfEven_sub_le y
  rw [abs_le] at h0
  linarith

lemma roundHalfEven_ge_of_ge (y : ℚ) (n : ℤ) (h : (n : ℚ) ≤ y) : n ≤ roundHalfEven y := by
  by_contra hcon
  have h1 : roundHalfEven y + 1 ≤ n := by omega
  have h2 : (roundHalfEven y : ℚ) + 1 ≤ (n : ℚ) := by exact_mod_cast h1
  have h0 := roundHalfEven_sub_le y
  rw [abs_le] at h0
  linarith

lemma log_spec (x : ℚ) (hx : x ≠ 0) :
    (2 : ℚ) ^ (Int.log 2 |x|) ≤ |x| ∧ |x| < (2 : ℚ) ^ (Int.log 2 |x| + 1) := by
  have hpos : 0 < |x| := abs_pos.mpr hx
  have h1 := Int.zpow_log_le_self (by norm_num : 1 < 2) hpos
  have h2 := Int.lt_zpow_succ_log_self (by norm_num : 1 < 2) |x|
  exact ⟨by exact_mod_cast h1, by exact_mod_cast h2⟩

lemma log_eq_of_bounds (x : ℚ) (e : ℤ) (h1 : (2 : ℚ) ^ e ≤ |x|) (h2 : |x| < (2 : ℚ) ^ (e + 1)) :
    Int.log 2 |x| = e := by
  have hpos : 0 < |x| := lt_of_lt_of_le (by positivity) h1
  have a1 : e ≤ Int.log 2 |x| :=
    (Int.zpow_le_iff_le_log (by norm_num : 1 < 2) hpos).mp (by exact_mod_cast h1)
  have a2 : Int.log 2 |x| < e + 1 :=
    (Int.lt_zpow_iff_log_lt (by norm_num : 1 < 2) hpos).mp (by exact_mod_cast h2)
  omega

lemma two_zpow_pos (z : ℤ) : (0 : ℚ) < (2 : ℚ) ^ z := by positivity

lemma fl_zero : fl 0 = 0 := by simp [fl]

/-- Evaluation of `fl` from a certificate: the binade of `x` and the rounded
significand. -/
lemma fl_eq_of (x : ℚ) (e n : ℤ) (h1 : (2 : ℚ) ^ e ≤ |x|) (h2 : |x| < (2 : ℚ) ^ (e + 1))
    (hn : roundHalfEven (x / (2 : ℚ) ^ (e - 52)) = n) :
    fl x = (n : ℚ) * (2 : ℚ) ^ (e - 52) := by
  have hx : x ≠ 0 := by
    intro h0
    rw [h0, abs_zero] at h1
    exact absurd h1 (not_le.mpr (two_zpow_pos e))
  unfold fl
  rw [if_neg hx, log_eq_of_bounds x e h1 h2, hn]

lemma fl_abs_sub_le (x : ℚ) : |fl x - x| ≤ (2 : ℚ) ^ (-53 : ℤ) * |x| := by
  by_cases hx : x = 0
  · rw [hx, fl_zero]; simp
  · obtain ⟨h1, _⟩ := log_spec x hx
    have hu := two_zpow_pos (Int.log 2 |x| - 52)
    have hr := roundHalfEven_sub_le (x / (2 : ℚ) ^ (Int.log 2 |x| - 52))
    have hfl : fl x - x = ((roundHalfEven (x / (2 : ℚ) ^ (Int.log 2 |x| - 52)) : ℚ)
        - x / (2 : ℚ) ^ (Int.log 2 |x| - 52)) * (2 : ℚ) ^ (Int.log 2 |x| - 52) := by
      unfold fl
      rw [if_neg hx]
      field_simp
    have hsplit : (2 : ℚ) ^ (Int.log 2 |x| - 52)
        = 2 * ((2 : ℚ) ^ (-53 : ℤ) * (2 : ℚ) ^ (Int.log 2 |x|)) := by
      rw [← zpow_add₀ (two_ne_zero), ← zpow_one_add₀ (two_ne_zero)]
      congr 1
      ring
    rw [hfl, abs_mul, abs_of_pos hu]
    have h53 := two_zpow_pos (-53)
    calc |_| * (2 : ℚ) ^ (Int.log 2 |x| - 52)
        ≤ 1 / 2 * (2 : ℚ) ^ (Int.log 2 |x| - 52) := mul_le_mul_of_nonneg_right hr (le_of_lt hu)
      _ = (2 : ℚ) ^ (-53 : ℤ) * (2 : ℚ) ^ (Int.log 2 |x|) := by rw [hsplit]; ring
      _ ≤ (2 : ℚ) ^ (-53 : ℤ) * |x| := mul_le_mul_of_nonneg_left h1 (le_of_lt h53)

lemma fl_nonneg (x : ℚ) (hx : 0 ≤ x) : 0 ≤ fl x := by
  by_cases h0 : x = 0
  · rw [h0, fl_zero]
  · unfold fl
    rw [if_neg h0]
    have hu := two_zpow_pos (Int.log 2 |x| - 52)
    have : (0 : ℤ) ≤ roundHalfEven (x / (2 : ℚ) ^ (Int.log 2 |x| - 52)) :=
      roundHalfEven_ge_of_ge _ 0 (by simpa using div_nonneg hx (le_of_lt hu))
    have h2 : (0 : ℚ) ≤ (roundHalfEven (x / (2 : ℚ) ^ (Int.log 2 |x| - 52)) : ℚ) := by
      exact_mod_cast this
    exact mul_nonneg h2 (le_of_lt hu)

lemma fl_pos (x : ℚ) (hx : 0 < x) : 0 < fl x := by
  have h0 : x ≠ 0 := ne_of_gt hx
  obtain ⟨h1, _⟩ := log_spec x h0
  rw [abs_of_pos hx] at h1
  unfold fl
  rw [if_neg h0, abs_of_pos hx]
  have hu := two_zpow_pos (Int.log 2 x - 52)
  have hq : ((1 : ℤ) : ℚ) ≤ x / (2 : ℚ) ^ (Int.log 2 x - 52) := by
    rw [le_div_iff₀ hu]
    have : (2 : ℚ) ^ (Int.log 2 x - 52) ≤ (2 : ℚ) ^ (Int.log 2 x) :=
      zpow_le_zpow_right₀ (by norm_num) (by omega)
    push_cast
    linarith
  have := roundHalfEven_ge_of_ge _ 1 hq
  have h2 : (1 : ℚ) ≤ (roundHalfEven (x / (2 : ℚ) ^ (Int.log 2 x - 52)) : ℚ) := by
    exact_mod_cast this
  exact mul_pos (by linarith) hu

lemma fl_le_mul (x : ℚ) (hx : 0 ≤ x) : fl x ≤ x * (1 + (2 : ℚ) ^ (-53 : ℤ)) := by
  have h := fl_abs_sub_le x
  rw [abs_of_nonneg hx, abs_le] at h
  linarith [h.2]

lemma fl_ge_mul (x : ℚ) (hx : 0 ≤ x) : x * (1 - (2 : ℚ) ^ (-53 : ℤ)) ≤ fl x := by
  have h := fl_abs_sub_le x
  rw [abs_of_nonneg hx, abs_le] at h
  linarith [h.1]

/-- A value `n * 2^j` below `2^(j+53)` has at most 53 significant bits and is
its own rounding. -/
lemma fl_of_scaled (x : ℚ) (n j : ℤ) (hx : x = (n : ℚ) * (2 : ℚ) ^ j)
    (hlt : |x| < (2 : ℚ) ^ (j + 53)) : fl x = x := by
  by_cases h0 : x = 0
  · rw [h0, fl_zero]
  · obtain ⟨h1, _⟩ := log_spec x h0
    have hfl : fl x = (roundHalfEven (x / (2 : ℚ) ^ (Int.log 2 |x| - 52)) : ℚ)
        * (2 : ℚ) ^ (Int.log 2 |x| - 52) := by
      unfold fl; rw [if_neg h0]
    generalize Int.log 2 |x| = e at h1 hfl
    have he : e < j + 53 :=
      (zpow_lt_zpow_iff_right₀ (by norm_num : (1 : ℚ) < 2)).mp (lt_of_le_of_lt h1 hlt)
    obtain ⟨k, hk⟩ := Int.eq_ofNat_of_zero_le (by omega : 0 ≤ j - (e - 52))
    have hj : j = (k : ℤ) + (e - 52) := by omega
    have hpow : (2 : ℚ) ^ j = (2 : ℚ) ^ k * (2 : ℚ) ^ (e - 52) := by
      rw [hj, zpow_add₀ (two_ne_zero), zpow_natCast]
    have hu := two_zpow_pos (e - 52)
    have hq : x / (2 : ℚ) ^ (e - 52) = ((n * 2 ^ k : ℤ) : ℚ) := by
      rw [hx, hpow]
      push_cast
      field_simp
      ring
    rw [hfl, hq, roundHalfEven_intCast]
    push_cast
    rw [mul_assoc, ← hpow]
    exact hx.symm

lemma fl_of_scaled_le (n j : ℤ) (hn : |n| ≤ 2 ^ 53) :
    fl ((n : ℚ) * (2 : ℚ) ^ j) = (n : ℚ) * (2 : ℚ) ^ j := by
  have hj := two_zpow_pos j
  rcases lt_or_eq_of_le hn with hlt | heq
  · apply fl_of_scaled _ n j rfl
    rw [abs_mul, abs_of_pos hj, zpow_add₀ (two_ne_zero), mul_comm ((2 : ℚ) ^ j)]
    have : |(n : ℚ)| < (2 : ℚ) ^ (53 : ℤ) := by
      have h2 : ((|n| : ℤ) : ℚ) < ((2 ^ 53 : ℤ) : ℚ) := by exact_mod_cast hlt
      rw [Int.cast_abs] at h2
      norm_num at h2 ⊢
      exact h2
    exact mul_lt_mul_of_pos_right this hj
  · have hcases : n = 2 ^ 53 ∨ n = -(2 ^ 53) := by
      rcases abs_cases n with ⟨h, _⟩ | ⟨h, _⟩ <;> omega
    have hbig : (2 : ℚ) ^ (j + 53) < (2 : ℚ) ^ (j + 53 + 53) :=
      zpow_lt_zpow_right₀ (by norm_num) (by omega)
    have hp : (((2 : ℤ) ^ 53 : ℤ) : ℚ) * (2 : ℚ) ^ j = (2 : ℚ) ^ (j + 53) := by
      rw [zpow_add₀ (two_ne_zero), mul_comm]
      norm_num
    rcases hcases with h | h
    · apply fl_of_scaled _ 1 (j + 53)
      · rw [h, hp]; push_cast; ring
      · rw [h, hp, abs_of_pos (two_zpow_pos _)]
        exact hbig
    · apply fl_of_scaled _ (-1) (j + 53)
      · rw [h, Int.cast_neg, neg_mul, hp]; push_cast; ring
      · rw [h, Int.cast_neg, neg_mul, abs_neg, hp, abs_of_pos (two_zpow_pos _)]
        exact hbig

lemma fl_intCast (n : ℤ) (hn : |n| ≤ 2 ^ 53) : fl (n : ℚ) = (n : ℚ) := by
  have := fl_of_scaled_le n 0 hn
  simpa using this

lemma fl_idem (x : ℚ) : fl (fl x) = fl x := by
  by_cases h0 : x = 0
  · rw [h0, fl_zero, fl_zero]
  · obtain ⟨_, h2⟩ := log_spec x h0
    have hu := two_zpow_pos (Int.log 2 |x| - 52)
    have hdef : fl x = (roundHalfEven (x / (2 : ℚ) ^ (Int.log 2 |x| - 52)) : ℚ)
        * (2 : ℚ) ^ (Int.log 2 |x| - 52) := by
      unfold fl; rw [if_neg h0]
    have hq : |x / (2 : ℚ) ^ (Int.log 2 |x| - 52)| ≤ (((2 : ℤ) ^ 53 : ℤ) : ℚ) := by
      rw [abs_div, abs_of_pos hu, div_le_iff₀ hu]
      have hc : (((2 : ℤ) ^ 53 : ℤ) : ℚ) = (2 : ℚ) ^ (53 : ℤ) := by norm_num
      have : (2 : ℚ) ^ (Int.log 2 |x| + 1)
          = (((2 : ℤ) ^ 53 : ℤ) : ℚ) * (2 : ℚ) ^ (Int.log 2 |x| - 52) := by
        rw [hc, ← zpow_add₀ (two_ne_zero)]
        congr 1
        ring
      linarith
    rw [abs_le] at hq
    have hm : |roundHalfEven (x / (2 : ℚ) ^ (Int.log 2 |x| - 52))| ≤ 2 ^ 53 := by
      rw [abs_le]
      constructor
      · exact roundHalfEven_ge_of_ge _ _ (by push_cast at hq ⊢; linarith [hq.1])
      · exact roundHalfEven_le_of_le _ _ (by push_cast at hq ⊢; linarith [hq.2])
    rw [hdef]
    exact fl_of_scaled_le _ _ hm

lemma fl_ofInt_small (n : ℤ) (q : ℚ) (hq : q = (n : ℚ)) (hn : |n| ≤ 2 ^ 53) : fl q = q := by
  rw [hq]; exact fl_intCast n hn

lemma fl_natCast (n : ℕ) (hn : n ≤ 2 ^ 53) : fl (n : ℚ) = (n : ℚ) := by
  have h := fl_intCast (n : ℤ) (by
    rw [abs_of_nonneg (Int.natCast_nonneg n)]
    exact_mod_cast hn)
  rw [Int.cast_natCast] at h
  exact h

lemma fl_def_pos (y : ℚ) (hy : 0 < y) :
    fl y = (roundHalfEven (y / (2 : ℚ) ^ (Int.log 2 y - 52)) : ℚ) * (2 : ℚ) ^ (Int.log 2 y - 52) ∧
    (2 : ℚ) ^ (Int.log 2 y) ≤ y ∧ y < (2 : ℚ) ^ (Int.log 2 y + 1) := by
  have h0 : y ≠ 0 := ne_of_gt hy
  have hs := log_spec y h0
  rw [abs_of_pos hy] at hs
  refine ⟨?_, hs.1, hs.2⟩
  unfold fl
  rw [if_neg h0, abs_of_pos hy]

lemma log_eq_of_bounds_pos (x : ℚ) (e : ℤ) (hx : 0 < x) (h1 : (2 : ℚ) ^ e ≤ x)
    (h2 : x < (2 : ℚ) ^ (e + 1)) : Int.log 2 x = e := by
  have := log_eq_of_bounds x e (by rw [abs_of_pos hx]; exact h1) (by rw [abs_of_pos hx]; exact h2)
  rw [abs_of_pos hx] at this
  exact this

/-- Rounding does not cross a double from above. -/
lemma fl_ge_of_double_le (c y : ℚ) (hc : fl c = c) (hc0 : 0 < c) (h : c ≤ y) : c ≤ fl y := by
  have hy : 0 < y := lt_of_lt_of_le hc0 h
  obtain ⟨hdef, hlo, hhi⟩ := fl_def_pos y hy
  have hu := two_zpow_pos (Int.log 2 y - 52)
  have hsplit : (2 : ℚ) ^ (Int.log 2 y) = (((2 : ℤ) ^ 52 : ℤ) : ℚ) * (2 : ℚ) ^ (Int.log 2 y - 52) := by
    have hc52 : (((2 : ℤ) ^ 52 : ℤ) : ℚ) = (2 : ℚ) ^ (52 : ℤ) := by norm_num
    rw [hc52, ← zpow_add₀ (two_ne_zero)]
    congr 1
    ring
  rw [hdef]
  rcases le_or_lt c ((2 : ℚ) ^ (Int.log 2 y)) with hle | hgt
  · have hq : (((2 : ℤ) ^ 52 : ℤ) : ℚ) ≤ y / (2 : ℚ) ^ (Int.log 2 y - 52) := by
      rw [le_div_iff₀ hu, ← hsplit]
      exact hlo
    have hr := roundHalfEven_ge_of_ge _ _ hq
    have hr2 : (((2 : ℤ) ^ 52 : ℤ) : ℚ) ≤ (roundHalfEven (y / (2 : ℚ) ^ (Int.log 2 y - 52)) : ℚ) := by
      exact_mod_cast hr
    calc c ≤ (2 : ℚ) ^ (Int.log 2 y) := hle
      _ = (((2 : ℤ) ^ 52 : ℤ) : ℚ) * (2 : ℚ) ^ (Int.log 2 y - 52) := hsplit
      _ ≤ _ := mul_le_mul_of_nonneg_right hr2 (le_of_lt hu)
  · have hlogc : Int.log 2 c = Int.log 2 y :=
      log_eq_of_bounds_pos c _ hc0 (le_of_lt hgt) (lt_of_le_of_lt h hhi)
    obtain ⟨hdefc, _, _⟩ := fl_def_pos c hc0
    rw [hc, hlogc] at hdefc
    have hq : ((roundHalfEven (c / (2 : ℚ) ^ (Int.log 2 y - 52)) : ℤ) : ℚ)
        ≤ y / (2 : ℚ) ^ (Int.log 2 y - 52) := by
      rw [le_div_iff₀ hu, ← hdefc]
      exact h
    have hr := roundHalfEven_ge_of_ge _ _ hq
    have hr2 : ((roundHalfEven (c / (2 : ℚ) ^ (Int.log 2 y - 52)) : ℤ) : ℚ)
        ≤ (roundHalfEven (y / (2 : ℚ) ^ (Int.log 2 y - 52)) : ℚ) := by
      exact_mod_cast hr
    calc c = _ := hdefc
      _ ≤ _ := mul_le_mul_of_nonneg_right hr2 (le_of_lt hu)

/-- Rounding does not cross a double from below. -/
lemma fl_le_of_le_double (c y : ℚ) (hc : fl c = c) (hy : 0 ≤ y) (h : y ≤ c) : fl y ≤ c := by
  rcases eq_or_lt_of_le hy with h0 | hpos
  · rw [← h0, fl_zero]; rw [← h0] at h; exact h
  · have hc0 : 0 < c := lt_of_lt_of_le hpos h
    obtain ⟨hdef, hlo, hhi⟩ := fl_def_pos y hpos
    have hu := two_zpow_pos (Int.log 2 y - 52)
    have hsplit : (2 : ℚ) ^ (Int.log 2 y + 1)
        = (((2 : ℤ) ^ 53 : ℤ) : ℚ) * (2 : ℚ) ^ (Int.log 2 y - 52) := by
      have hc53 : (((2 : ℤ) ^ 53 : ℤ) : ℚ) = (2 : ℚ) ^ (53 : ℤ) := by norm_num
      rw [hc53, ← zpow_add₀ (two_ne_zero)]
      congr 1
      ring
    rw [hdef]
    rcases le_or_lt ((2 : ℚ) ^ (Int.log 2 y + 1)) c with hge | hlt
    · have hq : y / (2 : ℚ) ^ (Int.log 2 y - 52) ≤ (((2 : ℤ) ^ 53 : ℤ) : ℚ) := by
        rw [div_le_iff₀ hu, ← hsplit]
        exact le_of_lt hhi
      have hr := roundHalfEven_le_of_le _ _ hq
      have hr2 : (roundHalfEven (y / (2 : ℚ) ^ (Int.log 2 y - 52)) : ℚ)
          ≤ (((2 : ℤ) ^ 53 : ℤ) : ℚ) := by
        exact_mod_cast hr
      calc _ ≤ (((2 : ℤ) ^ 53 : ℤ) : ℚ) * (2 : ℚ) ^ (Int.log 2 y - 52) :=
            mul_le_mul_of_nonneg_right hr2 (le_of_lt hu)
        _ = (2 : ℚ) ^ (Int.log 2 y + 1) := hsplit.symm
        _ ≤ c := hge
    · have hlogc : Int.log 2 c = Int.log 2 y :=
        log_eq_of_bounds_pos c _ hc0 (le_trans hlo h) hlt
      obtain ⟨hdefc, _, _⟩ := fl_def_pos c hc0
      rw [hc, hlogc] at hdefc
      have hq : y / (2 : ℚ) ^ (Int.log 2 y - 52)
          ≤ ((roundHalfEven (c / (2 : ℚ) ^ (Int.log 2 y - 52)) : ℤ) : ℚ) := by
        rw [div_le_iff₀ hu, ← hdefc]
        exact h
      have hr := roundHalfEven_le_of_le _ _ hq
      have hr2 : (roundHalfEven (y / (2 : ℚ) ^ (Int.log 2 y - 52)) : ℚ)
          ≤ ((roundHalfEven (c / (2 : ℚ) ^ (Int.log 2 y - 52)) : ℤ) : ℚ) := by
        exact_mod_cast hr
      calc _ ≤ _ := mul_le_mul_of_nonneg_right hr2 (le_of_lt hu)
        _ = c := hdefc.symm

/-- Taking one token from a double count between 1 and `2^53` is exact. -/
lemma fl_sub_one (z : ℚ) (hz : fl z = z) (h1 : 1 ≤ z) (h2 : z ≤ 9007199254740992) :
    fl (z - 1) = z - 1 := by
  rcases eq_or_lt_of_le h2 with heq | hlt
  · rw [heq]
    have := fl_intCast 9007199254740991 (by norm_num)
    norm_num at this ⊢
    exact this
  · have hpos : 0 < z := by linarith
    obtain ⟨hdef, hlo, hhi⟩ := fl_def_pos z hpos
    rw [hz] at hdef
    have he0 : 0 ≤ Int.log 2 z :=
      (Int.zpow_le_iff_le_log (by norm_num : 1 < 2) hpos).mp (by simpa using h1)
    have he52 : Int.log 2 z < 53 :=
      (Int.lt_zpow_iff_log_lt (by norm_num : 1 < 2) hpos).mp (by norm_num; exact hlt)
    obtain ⟨k, hk⟩ := Int.eq_ofNat_of_zero_le (by omega : 0 ≤ 52 - Int.log 2 z)
    have hone : (1 : ℚ) = (((2 : ℤ) ^ k : ℤ) : ℚ) * (2 : ℚ) ^ (Int.log 2 z - 52) := by
      push_cast
      rw [← zpow_natCast, ← zpow_add₀ (two_ne_zero)]
      have : (k : ℤ) + (Int.log 2 z - 52) = 0 := by omega
      rw [this, zpow_zero]
    apply fl_of_scaled (z - 1)
      (roundHalfEven (z / (2 : ℚ) ^ (Int.log 2 z - 52)) - 2 ^ k) (Int.log 2 z - 52)
    · rw [Int.cast_sub, sub_mul, ← hdef, ← hone]
    · rw [abs_of_nonneg (by linarith)]
      have : Int.log 2 z - 52 + 53 = Int.log 2 z + 1 := by ring
      rw [this]
      linarith

lemma unit_roundoff_pos : (0 : ℚ) < (2 : ℚ) ^ (-53 : ℤ) := two_zpow_pos _

lemma unit_roundoff_le : (2 : ℚ) ^ (-53 : ℤ) ≤ 1 / 4 := by norm_num

lemma fl_min (p q : ℚ) (hp : fl p = p) (hq : fl q = q) : fl (min p q) = min p q := by
  rcases le_total p q with h | h
  · rw [min_eq_left h, hp]
  · rw [min_eq_right h, hq]

lemma int_abs_le_of (n : ℤ) (h : |n| ≤ 2 ^ 52) : -4503599627370496 ≤ n ∧ n ≤ 4503599627370496 := by
  have := abs_le.mp h
  norm_num at this
  exact this

lemma fl_now_eq (n : ℤ) (h : |n| ≤ 2 ^ 52) : fl (n : ℚ) = (n : ℚ) := by
  obtain ⟨l1, u1⟩ := int_abs_le_of n h
  exact fl_intCast _ (by rw [abs_le]; constructor <;> norm_num <;> omega)

/-! ## Roundings of particular numbers -/

lemma fl_one : fl 1 = 1 := by
  have := fl_intCast 1 (by norm_num)
  simpa using this

lemma fl_one_int : fl (((1 : ℤ) : ℚ)) = 1 := by
  rw [Int.cast_one]; exact fl_one

lemma fl_three : fl (3 : ℚ) = 3 := fl_ofInt_small 3 3 (by norm_num) (by norm_num)

lemma fl_four : fl (4 : ℚ) = 4 := fl_ofInt_small 4 4 (by norm_num) (by norm_num)

lemma fl_two_pow_53_succ : fl ((9007199254740993 : ℤ) : ℚ) = 9007199254740992 := by
  have h := fl_eq_of ((9007199254740993 : ℤ) : ℚ) 53 4503599627370496
    (by norm_num [abs_of_pos]) (by norm_num [abs_of_pos])
    (roundHalfEven_tie_even _ 4503599627370496 (by norm_num) (by norm_num))
  rw [h]
  norm_num

lemma fl_one_div_49 : fl (1 / 49) = 5882252574524729 / 288230376151711744 := by
  have h := fl_eq_of (1 / 49) (-6) 5882252574524729 (by norm_num [abs_of_pos])
    (by norm_num [abs_of_pos])
    (roundHalfEven_eq_of_abs_lt _ _ (by norm_num [abs_lt]))
  rw [h]
  norm_num

lemma fl_q49 : fl (5882252574524729 / 288230376151711744)
    = 5882252574524729 / 288230376151711744 := by
  rw [← fl_one_div_49, fl_idem]

lemma fl_49_rate : fl (49 * (5882252574524729 / 288230376151711744))
    = 9007199254740991 / 9007199254740992 := by
  have h := fl_eq_of (49 * (5882252574524729 / 288230376151711744)) (-1) 9007199254740991
    (by norm_num [abs_of_pos]) (by norm_num [abs_of_pos])
    (roundHalfEven_eq_of_abs_lt _ _ (by norm_num [abs_lt]))
  rw [h]
  norm_num

lemma fl_p49 : fl (9007199254740991 / 9007199254740992) = 9007199254740991 / 9007199254740992 := by
  rw [← fl_49_rate, fl_idem]

lemma fl_one_sixth : fl (1 / 6) = 6004799503160661 / 36028797018963968 := by
  have h := fl_eq_of (1 / 6) (-3) 6004799503160661 (by norm_num [abs_of_pos])
    (by norm_num [abs_of_pos])
    (roundHalfEven_eq_of_abs_lt _ _ (by norm_num [abs_lt]))
  rw [h]
  norm_num

lemma fl_q : fl (6004799503160661 / 36028797018963968) = 6004799503160661 / 36028797018963968 := by
  rw [← fl_one_sixth, fl_idem]

lemma fl_six_q : fl (6 * (6004799503160661 / 36028797018963968)) = 1 := by
  have h := fl_eq_of (6 * (6004799503160661 / 36028797018963968)) (-1) 9007199254740992
    (by norm_num [abs_of_pos]) (by norm_num [abs_of_pos])
    (roundHalfEven_tie_odd _ 9007199254740991 (by norm_num) (by norm_num))
  rw [h]
  norm_num

lemma fl_five_q : fl (5 * (6004799503160661 / 36028797018963968))
    = 7505999378950826 / 9007199254740992 := by
  have h := fl_eq_of (5 * (6004799503160661 / 36028797018963968)) (-1) 7505999378950826
    (by norm_num [abs_of_pos]) (by norm_num [abs_of_pos])
    (roundHalfEven_eq_of_abs_lt _ _ (by norm_num [abs_lt]))
  rw [h]
  norm_num

lemma fl_q_add_five_q :
    fl (6004799503160661 / 36028797018963968 + 7505999378950826 / 9007199254740992)
      = 9007199254740991 / 9007199254740992 := by
  have h := fl_eq_of (6004799503160661 / 36028797018963968 + 7505999378950826 / 9007199254740992)
    (-1) 9007199254740991
    (by norm_num [abs_of_pos]) (by norm_num [abs_of_pos])
    (roundHalfEven_eq_of_abs_lt _ _ (by norm_num [abs_lt]))
  rw [h]
  norm_num

/-! ## One run in double arithmetic -/

lemma luaSourceF64_eq (a : ScriptArgs) (data : Option BucketF64) :
    luaSourceF64 a data =
      if fl (a.requested : ℚ) ≤ refilledF64 a data then
        ⟨⟨fl (refilledF64 a data - fl (a.requested : ℚ)), fl (a.now : ℚ)⟩, a.ttl, 1⟩
      else ⟨⟨refilledF64 a data, fl (a.now : ℚ)⟩, a.ttl, 0⟩ := by
  cases data with
  | none =>
    by_cases h : fl (a.requested : ℚ) ≤ min (fl a.capacity)
      (fl (fl a.capacity + fl (max 0 (fl (fl (a.now : ℚ) - fl (a.now : ℚ))) * fl a.rate)))
    · simp only [luaSourceF64, refilledF64, h, decide_True, if_true]
    · simp only [luaSourceF64, refilledF64, h, decide_False, if_false, Bool.false_eq_true]
  | some b =>
    by_cases h : fl (a.requested : ℚ) ≤ min (fl a.capacity)
      (fl (fl b.tokens + fl (max 0 (fl (fl (a.now : ℚ) - fl b.timestamp)) * fl a.rate)))
    · simp only [luaSourceF64, refilledF64, h, decide_True, if_true]
    · simp only [luaSourceF64, refilledF64, h, decide_False, if_false, Bool.false_eq_true]

lemma refilledF64_le_capacity (a : ScriptArgs) (data : Option BucketF64) :
    refilledF64 a data ≤ fl a.capacity := by
  cases data <;> exact min_le_left _ _

lemma resultF64_eq (a : ScriptArgs) (data : Option BucketF64) :
    (luaSourceF64 a data).result = if fl (a.requested : ℚ) ≤ refilledF64 a data then 1 else 0 := by
  rw [luaSourceF64_eq]; split_ifs <;> rfl

lemma refilledF64_none (a : ScriptArgs) : refilledF64 a none = fl a.capacity := by
  simp only [refilledF64, sub_self, fl_zero, max_self, zero_mul, add_zero, fl_idem, min_self]

lemma resultF64_zero_iff (a : ScriptArgs) (data : Option BucketF64) :
    (luaSourceF64 a data).result = 0 ↔ refilledF64 a data < fl (a.requested : ℚ) := by
  rw [resultF64_eq]
  split_ifs with h
  · exact ⟨fun h1 => absurd h1 (by decide), fun h2 => absurd h (not_le.mpr h2)⟩
  · exact ⟨fun _ => not_le.mp h, fun _ => rfl⟩

lemma storedF64_timestamp_eq (a : ScriptArgs) (data : Option BucketF64) :
    (luaSourceF64 a data).stored.timestamp = fl (a.now : ℚ) := by
  rw [luaSourceF64_eq]; split_ifs <;> rfl

lemma expireF64_eq (a : ScriptArgs) (data : Option BucketF64) :
    (luaSourceF64 a data).expire = a.ttl := by
  rw [luaSourceF64_eq]; split_ifs <;> rfl

lemma storedF64_tokens_eq (a : ScriptArgs) (data : Option BucketF64) :
    (luaSourceF64 a data).stored.tokens
      = if fl (a.requested : ℚ) ≤ refilledF64 a data
        then fl (refilledF64 a data - fl (a.requested : ℚ)) else refilledF64 a data := by
  rw [luaSourceF64_eq]; split_ifs <;> rfl

lemma denied_storedF64 (a : ScriptArgs) (data : Option BucketF64)
    (h : (luaSourceF64 a data).result = 0) :
    (luaSourceF64 a data).stored = ⟨refilledF64 a data, fl (a.now : ℚ)⟩ := by
  have hlt := (resultF64_zero_iff a data).mp h
  rw [luaSourceF64_eq, if_neg (not_le.mpr hlt)]

lemma refilledF64_double (a : ScriptArgs) (data : Option BucketF64) :
    fl (refilledF64 a data) = refilledF64 a data := by
  cases data <;> exact fl_min _ _ (fl_idem _) (fl_idem _)

lemma refilledF64_nonneg (a : ScriptArgs) (data : Option BucketF64) (hC : 0 ≤ fl a.capacity)
    (hR : 0 ≤ fl a.rate) (hd : ∀ b, data = some b → 0 ≤ b.tokens) :
    0 ≤ refilledF64 a data := by
  cases data with
  | none =>
    exact le_min hC (fl_nonneg _ (add_nonneg hC
      (fl_nonneg _ (mul_nonneg (le_max_left _ _) hR))))
  | some b =>
    exact le_min hC (fl_nonneg _ (add_nonneg (fl_nonneg _ (hd b rfl))
      (fl_nonneg _ (mul_nonneg (le_max_left _ _) hR))))

/-- The refill of a present bucket whose fields are doubles within the exact
integer range: the time difference is exact. -/
lemma refilledF64_some (a : ScriptArgs) (b : BucketF64) (ts : ℤ) (hts : b.timestamp = (ts : ℚ))
    (h1 : |ts| ≤ 2 ^ 52) (h2 : |a.now| ≤ 2 ^ 52) (hx : fl b.tokens = b.tokens) :
    refilledF64 a (some b) = min (fl a.capacity)
      (fl (b.tokens + fl (((max 0 (a.now - ts) : ℤ) : ℚ) * fl a.rate))) := by
  obtain ⟨l1, u1⟩ := int_abs_le_of ts h1
  obtain ⟨l2, u2⟩ := int_abs_le_of a.now h2
  have e1 : fl (a.now : ℚ) = (a.now : ℚ) :=
    fl_intCast _ (by rw [abs_le]; constructor <;> norm_num <;> omega)
  have e2 : fl (ts : ℚ) = (ts : ℚ) :=
    fl_intCast _ (by rw [abs_le]; constructor <;> norm_num <;> omega)
  have e3 : fl (((a.now - ts : ℤ)) : ℚ) = ((a.now - ts : ℤ) : ℚ) :=
    fl_intCast _ (by rw [abs_le]; constructor <;> norm_num <;> omega)
  have e4 : (a.now : ℚ) - (ts : ℚ) = ((a.now - ts : ℤ) : ℚ) := by push_cast; ring
  have e5 : max (0 : ℚ) ((a.now - ts : ℤ) : ℚ) = ((max 0 (a.now - ts) : ℤ) : ℚ) := by
    rw [Int.cast_max]; norm_num
  simp only [refilledF64, hts, e1, e2, e4, e3, e5, hx]

/-- The refill of a present bucket with an integer timestamp in the exact
range: the time difference is exact. -/
lemma refilledF64_present (a : ScriptArgs) (b : BucketF64) (ts : ℤ)
    (hts : b.timestamp = (ts : ℚ)) (h1 : |ts| ≤ 2 ^ 52) (h2 : |a.now| ≤ 2 ^ 52) :
    refilledF64 a (some b) = min (fl a.capacity)
      (fl (fl b.tokens + fl (((max 0 (a.now - ts) : ℤ) : ℚ) * fl a.rate))) := by
  have h := refilledF64_some a ⟨fl b.tokens, b.timestamp⟩ ts hts h1 h2 (fl_idem _)
  have e : refilledF64 a (some b) = refilledF64 a (some ⟨fl b.tokens, b.timestamp⟩) := by
    simp only [refilledF64, fl_idem]
  rw [e, h]

/-- Evaluation of the refill of a present bucket from the values of its two
roundings. -/
lemma refilledF64_eval (rate capacity : ℚ) (ttl now req ts d : ℤ) (x p y : ℚ)
    (h1 : |ts| ≤ 2 ^ 52) (h2 : |now| ≤ 2 ^ 52) (hx : fl x = x)
    (hd : max 0 (now - ts) = d) (hp : fl ((d : ℚ) * fl rate) = p) (hy : fl (x + p) = y) :
    refilledF64 ⟨rate, capacity, now, req, ttl⟩ (some ⟨x, (ts : ℚ)⟩) = min (fl capacity) y := by
  rw [refilledF64_some ⟨rate, capacity, now, req, ttl⟩ ⟨x, (ts : ℚ)⟩ ts rfl h1 h2 hx]
  show min (fl capacity) (fl (x + fl (((max 0 (now - ts) : ℤ) : ℚ) * fl rate))) = _
  rw [hd, hp, hy]

/-- Evaluation of one refill on a present bucket from certified roundings. -/
lemma refilledF64_at (rate capacity : ℚ) (ttl now req ts d : ℤ) (x tsq p y : ℚ)
    (hts : tsq = (ts : ℚ)) (h1 : |ts| ≤ 2 ^ 52) (h2 : |now| ≤ 2 ^ 52) (hx : fl x = x)
    (hd : max 0 (now - ts) = d) (hp : fl ((d : ℚ) * fl rate) = p) (hy : fl (x + p) = y) :
    refilledF64 ⟨rate, capacity, now, req, ttl⟩ (some ⟨x, tsq⟩) = min (fl capacity) y := by
  rw [hts]
  exact refilledF64_eval rate capacity ttl now req ts d x p y h1 h2 hx hd hp hy

/-- A run at the time the bucket was written, on a double token count within
the capacity: nothing is refilled. -/
lemma refilledF64_same_time (a : ScriptArgs) (x : ℚ) (hnow : |a.now| ≤ 2 ^ 52)
    (hx : fl x = x) (hxC : x ≤ fl a.capacity) :
    refilledF64 a (some ⟨x, (a.now : ℚ)⟩) = x := by
  rw [refilledF64_some a ⟨x, (a.now : ℚ)⟩ a.now rfl hnow hnow hx]
  show min (fl a.capacity) (fl (x + fl (((max 0 (a.now - a.now) : ℤ) : ℚ) * fl a.rate))) = x
  rw [sub_self, max_self, Int.cast_zero, zero_mul, fl_zero, add_zero, hx]
  exact min_eq_right hxC

/-- The refill of a bucket written at `s` and read `t` seconds later. -/
lemma refilledF64_after_wait (rate capacity r : ℚ) (ttl s : ℤ) (t : ℕ) (hr : fl r = r)
    (hs : |s| ≤ 2 ^ 52) (hst : |s + (t : ℤ)| ≤ 2 ^ 52) :
    refilledF64 ⟨rate, capacity, s + t, 1, ttl⟩ (some ⟨r, (s : ℚ)⟩)
      = min (fl capacity) (fl (r + fl ((t : ℚ) * fl rate))) := by
  have hmax : max (0 : ℤ) (s + (t : ℤ) - s) = (t : ℤ) := by
    have : s + (t : ℤ) - s = (t : ℤ) := by ring
    rw [this]; exact max_eq_right (Int.natCast_nonneg t)
  rw [refilledF64_some ⟨rate, capacity, s + t, 1, ttl⟩ ⟨r, (s : ℚ)⟩ s rfl hs hst hr]
  show min (fl capacity) (fl (r + fl (((max 0 (s + (t : ℤ) - s) : ℤ) : ℚ) * fl rate))) = _
  rw [hmax, Int.cast_natCast]

lemma refilledF64_some_le (a : ScriptArgs) (b : BucketF64) (ts : ℤ)
    (hts : b.timestamp = (ts : ℚ)) (h1 : |ts| ≤ 2 ^ 52) (h2 : |a.now| ≤ 2 ^ 52)
    (hx : fl b.tokens = b.tokens) (hx0 : 0 ≤ b.tokens) (hR : 0 ≤ fl a.rate) :
    refilledF64 a (some b) ≤ b.tokens * (1 + (2 : ℚ) ^ (-53 : ℤ))
      + fl a.rate * ((max 0 (a.now - ts) : ℤ) : ℚ) * (1 + (2 : ℚ) ^ (-53 : ℤ)) ^ 2 := by
  rw [refilledF64_some a b ts hts h1 h2 hx]
  have hd : (0 : ℚ) ≤ ((max 0 (a.now - ts) : ℤ) : ℚ) := by
    exact_mod_cast le_max_left 0 (a.now - ts)
  have hu := unit_roundoff_pos
  have hp0 := mul_nonneg hd hR
  have hp := fl_le_mul _ hp0
  have hpn := fl_nonneg _ hp0
  have hy := fl_le_mul (b.tokens + fl (((max 0 (a.now - ts) : ℤ) : ℚ) * fl a.rate))
    (add_nonneg hx0 hpn)
  refine le_trans (min_le_right _ _) (le_trans hy ?_)
  nlinarith [mul_le_mul_of_nonneg_right hp (by linarith : (0 : ℚ) ≤ 1 + (2 : ℚ) ^ (-53 : ℤ))]

/-- The debit of one run: what is stored is a non-negative double, and the
amount let through plus the stored tokens exceeds the refilled count by at
most one rounding. -/
lemma debitF64 (a : ScriptArgs) (data : Option BucketF64)
    (hz0 : 0 ≤ refilledF64 a data) (hpos : 0 < a.requested) (hreq : a.requested ≤ 2 ^ 53) :
    (luaSourceF64 a data).stored.timestamp = fl (a.now : ℚ) ∧
    fl (luaSourceF64 a data).stored.tokens = (luaSourceF64 a data).stored.tokens ∧
    0 ≤ (luaSourceF64 a data).stored.tokens ∧
    (luaSourceF64 a data).stored.tokens ≤ fl a.capacity * (1 + (2 : ℚ) ^ (-53 : ℤ)) ∧
    (((if (luaSourceF64 a data).result = 1 then a.requested else 0 : ℤ) : ℚ))
      + (luaSourceF64 a data).stored.tokens
      ≤ refilledF64 a data + (2 : ℚ) ^ (-53 : ℤ) * fl a.capacity := by
  have hu := unit_roundoff_pos
  have hzC := refilledF64_le_capacity a data
  have hrq : fl (a.requested : ℚ) = (a.requested : ℚ) :=
    fl_intCast _ (by rw [abs_of_pos hpos]; exact hreq)
  have hr0 : (0 : ℚ) < (a.requested : ℚ) := by exact_mod_cast hpos
  rw [luaSourceF64_eq, hrq]
  by_cases h : (a.requested : ℚ) ≤ refilledF64 a data
  · rw [if_pos h]
    have hdiff : 0 ≤ refilledF64 a data - (a.requested : ℚ) := by linarith
    have hle := fl_le_mul _ hdiff
    refine ⟨rfl, fl_idem _, fl_nonneg _ hdiff, ?_, ?_⟩
    · show fl (refilledF64 a data - (a.requested : ℚ))
        ≤ fl a.capacity * (1 + (2 : ℚ) ^ (-53 : ℤ))
      nlinarith
    · show (((if (1 : ℤ) = 1 then a.requested else 0 : ℤ) : ℚ))
          + fl (refilledF64 a data - (a.requested : ℚ))
        ≤ refilledF64 a data + (2 : ℚ) ^ (-53 : ℤ) * fl a.capacity
      rw [if_pos rfl]
      nlinarith
  · rw [if_neg h]
    have hC0 : (0 : ℚ) ≤ fl a.capacity := le_trans hz0 hzC
    refine ⟨rfl, refilledF64_double a data, hz0, ?_, ?_⟩
    · show refilledF64 a data ≤ fl a.capacity * (1 + (2 : ℚ) ^ (-53 : ℤ))
      nlinarith
    · show (((if (0 : ℤ) = 1 then a.requested else 0 : ℤ) : ℚ)) + refilledF64 a data
        ≤ refilledF64 a data + (2 : ℚ) ^ (-53 : ℤ) * fl a.capacity
      rw [if_neg (by decide)]
      push_cast
      nlinarith

lemma first_run_one (rate : ℚ) (ttl : ℤ) :
    luaSourceF64 ⟨rate, 1, 0, 1, ttl⟩ none = ⟨⟨0, 0⟩, ttl, 1⟩ := by
  rw [luaSourceF64_eq, refilledF64_none]
  norm_num [fl_one, fl_zero]

/-- One allowed single-token request empties a fresh bucket of capacity 1. -/
lemma runStateF64_first_one (rate : ℚ) (ttl : ℤ) :
    runStateF64 rate 1 ttl none [(0, 1)] = some ⟨0, 0⟩ := by
  show some (luaSourceF64 ⟨rate, 1, 0, 1, ttl⟩ none).stored = _
  rw [first_run_one]

/-! ## C16 in double arithmetic: requests larger than the bucket -/

/-- C16, as stated, fails in double arithmetic: with capacity `2^53` a request
for `2^53 + 1` tokens is larger than the capacity, but `tonumber` rounds it to
`2^53`, and the script returns 1 on an absent bucket. -/
theorem oversized_request_float64_counterexample :
    (9007199254740992 : ℚ) < ((9007199254740993 : ℤ) : ℚ) ∧
    (luaSourceF64 ⟨1, 9007199254740992, 0, 9007199254740993, 2⟩ none).result = 1 := by
  constructor
  · norm_num
  · have hc : fl (9007199254740992 : ℚ) = 9007199254740992 :=
      fl_ofInt_small 9007199254740992 _ (by norm_num) (by norm_num)
    rw [resultF64_eq, refilledF64_none]
    show (if fl ((9007199254740993 : ℤ) : ℚ) ≤ fl (9007199254740992 : ℚ) then (1 : ℤ) else 0) = 1
    rw [fl_two_pow_53_succ, hc]
    norm_num

/-- C16 (amended): a run whose requested amount, rounded to a double, exceeds
the capacity rounded to a double returns 0, whatever the bucket state, the rate
and `now`; that is the case whenever the capacity is a double,
`|requested| <= 2^53` and `requested > capacity`.  So `Allow` with such a
positive `n`, against any store operation that replies with the result of the
script, returns `(false, nil)`. -/
theorem oversized_request_denied_float64 (a : ScriptArgs) (data : Option BucketF64) :
    (fl a.capacity < fl (a.requested : ℚ) → (luaSourceF64 a data).result = 0) ∧
    (fl a.capacity = a.capacity → |a.requested| ≤ 2 ^ 53 → a.capacity < (a.requested : ℚ) →
      (luaSourceF64 a data).result = 0) ∧
    (∀ {σ ε : Type} (run : String → ScriptArgs → σ → Except ε ℤ × σ) (l : Limiter) (now : ℤ)
      (s s1 : σ) (key : String) (rest : List ℤ) (st : Option BucketF64),
      0 < a.requested → fl l.capacity < fl (a.requested : ℚ) →
      run key (scriptArgs l now a.requested) s
        = (.ok (luaSourceF64 (scriptArgs l now a.requested) st).result, s1) →
      Allow run l now s key (a.requested :: rest) = ((false, none), s1)) := by
  have hgen : ∀ (a2 : ScriptArgs) (d : Option BucketF64),
      fl a2.capacity < fl (a2.requested : ℚ) → (luaSourceF64 a2 d).result = 0 := fun a2 d h =>
    (resultF64_zero_iff a2 d).mpr (lt_of_le_of_lt (refilledF64_le_capacity a2 d) h)
  refine ⟨hgen a data, ?_, ?_⟩
  · intro hc hr hlt
    apply hgen
    rw [hc, fl_intCast _ hr]
    exact hlt
  · intro σ ε run l now s s1 key rest st hpos hbig hrun
    have hnot : ¬ a.requested ≤ 0 := not_le.mpr hpos
    have hres := hgen (scriptArgs l now a.requested) st hbig
    simp only [Allow, if_neg hnot, hrun, hres]
    simp

/-- Witness of C16 (amended): a four-token request against capacity 3, on the
bucket `(tokens = 3, timestamp = 0)` a thousand seconds later. -/
theorem oversized_request_denied_float64_witness :
    (luaSourceF64 ⟨3, 3, 1000, 4, 2⟩ (some ⟨3, 0⟩)).result = 0 ∧
    Allow execF64 ⟨3, 3, 2000000000⟩ 1000 (some ⟨3, 0⟩) "k" [4]
      = ((false, none),
          some (luaSourceF64 (scriptArgs ⟨3, 3, 2000000000⟩ 1000 4) (some ⟨3, 0⟩)).stored) :=
  ⟨(oversized_request_denied_float64 ⟨3, 3, 1000, 4, 2⟩ (some ⟨3, 0⟩)).2.1 fl_three
      (by norm_num) (by norm_num),
   (oversized_request_denied_float64 ⟨3, 3, 1000, 4, 2⟩ (some ⟨3, 0⟩)).2.2 execF64
      ⟨3, 3, 2000000000⟩ 1000 (some ⟨3, 0⟩) _ "k" [] (some ⟨3, 0⟩) (by decide)
      (by
        show fl (3 : ℚ) < fl (((4 : ℤ) : ℚ))
        rw [fl_three]
        norm_num [fl_four])
      rfl⟩

/-! ## C10 in double arithmetic: construction -/

lemma SecondsF64_pos (d : ℤ) (hd : 0 < d) : 0 < SecondsF64 d := by
  have hsplit := Int.tdiv_add_tmod d Second
  have hS : (0 : ℤ) ≤ Second := by decide
  have h1 : 0 ≤ Int.tdiv d Second := Int.tdiv_nonneg (le_of_lt hd) hS
  have h2 : 0 ≤ Int.tmod d Second := Int.tmod_nonneg _ (le_of_lt hd)
  have h1q : (0 : ℚ) ≤ ((Int.tdiv d Second : ℤ) : ℚ) := by exact_mod_cast h1
  have h2q : (0 : ℚ) ≤ ((Int.tmod d Second : ℤ) : ℚ) := by exact_mod_cast h2
  have a1 := fl_nonneg _ h1q
  have a2 := fl_nonneg _ h2q
  have a3 : 0 ≤ fl (fl ((Int.tmod d Second : ℤ) : ℚ) / 1000000000) :=
    fl_nonneg _ (div_nonneg a2 (by norm_num))
  unfold SecondsF64
  apply fl_pos
  rcases lt_or_eq_of_le h1 with hpos | hzero
  · have : (0 : ℚ) < ((Int.tdiv d Second : ℤ) : ℚ) := by exact_mod_cast hpos
    have := fl_pos _ this
    linarith
  · have hmod : 0 < Int.tmod d Second := by
      rw [← hzero] at hsplit
      simp at hsplit
      omega
    have : (0 : ℚ) < ((Int.tmod d Second : ℤ) : ℚ) := by exact_mod_cast hmod
    have b1 := fl_pos _ this
    have b2 : 0 < fl (fl ((Int.tmod d Second : ℤ) : ℚ) / 1000000000) :=
      fl_pos _ (div_pos b1 (by norm_num))
    linarith

lemma NewF64_ok (capacity window : ℤ) (hc : 0 < capacity) (hw : 0 < window) :
    NewF64 capacity window = .ok
      { capacity := fl (capacity : ℚ)
        rate := fl (fl (capacity : ℚ) / SecondsF64 window)
        ttl := wrapInt64 (window * 2) } := by
  unfold NewF64
  rw [if_neg (not_le.mpr hc), if_neg (not_le.mpr hw)]

lemma SecondsF64_49 : SecondsF64 49000000000 = 49 := by
  have h1 : Int.tdiv 49000000000 Second = 49 := by decide
  have h2 : Int.tmod 49000000000 Second = 0 := by decide
  have h49 : fl (49 : ℚ) = 49 := fl_ofInt_small 49 49 (by norm_num) (by norm_num)
  unfold SecondsF64
  rw [h1, h2]
  norm_num [fl_zero, h49]

/-- C10, as stated, fails: `New(client, 1, 49 * time.Second)` has the rate
`fl(1 / 49)`, and neither the exact product `rate * 49` nor its rounding is 1;
a single-token request one full window after a request at time 0 emptied the
bucket finds `1 - 2^-53` tokens and is denied. -/
theorem new_construction_float64_counterexample :
    NewF64 1 49000000000
      = .ok ⟨1, 5882252574524729 / 288230376151711744, 98000000000⟩ ∧
    runStateF64 (5882252574524729 / 288230376151711744) 1 98 none [(0, 1)] = some ⟨0, 0⟩ ∧
    (5882252574524729 / 288230376151711744 : ℚ) * SecondsF64 49000000000 ≠ 1 ∧
    fl ((5882252574524729 / 288230376151711744 : ℚ) * SecondsF64 49000000000) ≠ 1 ∧
    luaSourceF64 (scriptArgs ⟨1, 5882252574524729 / 288230376151711744, 98000000000⟩ 49 1)
        (some ⟨0, 0⟩)
      = ⟨⟨9007199254740991 / 9007199254740992, 49⟩, 98, 0⟩ := by
  have h49 : fl (49 : ℚ) = 49 := fl_ofInt_small 49 49 (by norm_num) (by norm_num)
  refine ⟨?_, runStateF64_first_one _ 98, ?_, ?_, ?_⟩
  · rw [NewF64_ok 1 49000000000 (by decide) (by decide), SecondsF64_49]
    have hw : wrapInt64 (49000000000 * 2) = 98000000000 := by decide
    rw [hw]
    norm_num [fl_one, fl_one_div_49]
  · rw [SecondsF64_49]; norm_num
  · rw [SecondsF64_49, mul_comm, fl_49_rate]; norm_num
  · have httl : truncToInt (Seconds 98000000000) = 98 := by
      have h1 : Int.tdiv 98000000000 Second = 98 := by decide
      have h2 : Int.tmod 98000000000 Second = 0 := by decide
      unfold truncToInt Seconds
      rw [h1, h2]
      norm_num
    have hargs : scriptArgs ⟨1, 5882252574524729 / 288230376151711744, 98000000000⟩ 49 1
        = ⟨5882252574524729 / 288230376151711744, 1, 49, 1, 98⟩ := by
      unfold scriptArgs
      rw [httl]
    have r : refilledF64 ⟨5882252574524729 / 288230376151711744, 1, 49, 1, 98⟩ (some ⟨0, 0⟩)
        = 9007199254740991 / 9007199254740992 := by
      rw [refilledF64_at _ 1 98 49 1 0 49 0 0 (9007199254740991 / 9007199254740992)
        (9007199254740991 / 9007199254740992) (by norm_num) (by norm_num) (by norm_num)
        fl_zero (by decide)
        (by rw [fl_q49]; exact_mod_cast fl_49_rate) (by rw [zero_add]; exact fl_p49)]
      norm_num [fl_one]
    rw [hargs, luaSourceF64_eq, r]
    norm_num [fl_one, h49]

/-- C10 (amended): `New` panics exactly when `capacity <= 0` or `window <= 0`;
otherwise the limiter has the capacity `float64(capacity)`, which is the given
capacity when that is at most `2^53`, and the rate
`fl(float64(capacity) / window.Seconds())`, which is positive, and
`rate * window.Seconds()` is within one rounding, `2^-53 * capacity`, of the
capacity of the limiter. -/
theorem new_construction_float64 (capacity window : ℤ) :
    ((∃ msg, NewF64 capacity window = .error msg) ↔ (capacity ≤ 0 ∨ window ≤ 0)) ∧
    (¬ (capacity ≤ 0 ∨ window ≤ 0) →
      ∃ l, NewF64 capacity window = .ok l ∧
        l.capacity = fl (capacity : ℚ) ∧
        (capacity ≤ 2 ^ 53 → l.capacity = (capacity : ℚ)) ∧
        l.rate = fl (l.capacity / SecondsF64 window) ∧
        0 < l.rate ∧
        |l.rate * SecondsF64 window - l.capacity| ≤ (2 : ℚ) ^ (-53 : ℤ) * l.capacity) := by
  constructor
  · constructor
    · rintro ⟨msg, hmsg⟩
      by_contra hcon
      have hc : 0 < capacity := by omega
      have hw : 0 < window := by omega
      rw [NewF64_ok capacity window hc hw] at hmsg
      cases hmsg
    · rintro (hc | hw)
      · exact ⟨"limiter: capacity must be > 0", by unfold NewF64; rw [if_pos hc]⟩
      · by_cases hc : capacity ≤ 0
        · exact ⟨"limiter: capacity must be > 0", by unfold NewF64; rw [if_pos hc]⟩
        · exact ⟨"limiter: window must be > 0", by unfold NewF64; rw [if_neg hc, if_pos hw]⟩
  · intro hcon
    have hc : 0 < capacity := by omega
    have hw : 0 < window := by omega
    have hW := SecondsF64_pos window hw
    have hcq : (0 : ℚ) < (capacity : ℚ) := by exact_mod_cast hc
    have hC := fl_pos _ hcq
    have hquot : 0 < fl (capacity : ℚ) / SecondsF64 window := div_pos hC hW
    refine ⟨_, NewF64_ok capacity window hc hw, rfl, ?_, rfl, fl_pos _ hquot, ?_⟩
    · intro hsmall
      exact fl_intCast capacity (by rw [abs_of_pos hc]; exact hsmall)
    · show |fl (fl (capacity : ℚ) / SecondsF64 window) * SecondsF64 window - fl (capacity : ℚ)|
        ≤ (2 : ℚ) ^ (-53 : ℤ) * fl (capacity : ℚ)
      have herr := fl_abs_sub_le (fl (capacity : ℚ) / SecondsF64 window)
      rw [abs_of_pos hquot] at herr
      have hmul : fl (fl (capacity : ℚ) / SecondsF64 window) * SecondsF64 window - fl (capacity : ℚ)
          = (fl (fl (capacity : ℚ) / SecondsF64 window) - fl (capacity : ℚ) / SecondsF64 window)
            * SecondsF64 window := by
        field_simp
      rw [hmul, abs_mul, abs_of_pos hW]
      calc |fl (fl (capacity : ℚ) / SecondsF64 window) - fl (capacity : ℚ) / SecondsF64 window|
            * SecondsF64 window
          ≤ ((2 : ℚ) ^ (-53 : ℤ) * (fl (capacity : ℚ) / SecondsF64 window)) * SecondsF64 window :=
            mul_le_mul_of_nonneg_right herr (le_of_lt hW)
        _ = (2 : ℚ) ^ (-53 : ℤ) * fl (capacity : ℚ) := by
            rw [mul_assoc, div_mul_cancel₀ _ (ne_of_gt hW)]

/-- Witness of C10 (amended): `New(client, 3, time.Second)`. -/
theorem new_construction_float64_witness :
    ¬ ((3 : ℤ) ≤ 0 ∨ (1000000000 : ℤ) ≤ 0) ∧
    ∃ l, NewF64 3 1000000000 = .ok l ∧
      l.capacity = fl ((3 : ℤ) : ℚ) ∧
      ((3 : ℤ) ≤ 2 ^ 53 → l.capacity = ((3 : ℤ) : ℚ)) ∧
      l.rate = fl (l.capacity / SecondsF64 1000000000) ∧
      0 < l.rate ∧
      |l.rate * SecondsF64 1000000000 - l.capacity| ≤ (2 : ℚ) ^ (-53 : ℤ) * l.capacity :=
  ⟨by decide, (new_construction_float64 3 1000000000).2 (by decide)⟩

/-! ## C2 and C15 in double arithmetic: the rate bound -/

/-- Allowed total of a run sequence in double arithmetic, started on a present
bucket: tokens in the bucket, plus the refill over the forward movement of the
clock, plus three roundings of the capacity per run. -/
lemma allowedSumF64_le (rate capacity : ℚ) (ttl : ℤ) (hC : 0 ≤ fl capacity) (hR : 0 ≤ fl rate) :
    ∀ (cs : List (ℤ × ℤ)) (b : BucketF64) (ts : ℤ), b.timestamp = (ts : ℚ) → |ts| ≤ 2 ^ 52 →
      fl b.tokens = b.tokens → 0 ≤ b.tokens →
      b.tokens ≤ fl capacity * (1 + (2 : ℚ) ^ (-53 : ℤ)) →
      (∀ x ∈ cs, 0 < x.2 ∧ x.2 ≤ 2 ^ 53 ∧ |x.1| ≤ 2 ^ 52) →
      (allowedSumF64 rate capacity ttl (some b) cs : ℚ) ≤
        b.tokens + fl rate * (forwardTravel ts cs : ℚ) * (1 + (2 : ℚ) ^ (-53 : ℤ)) ^ 2
          + 3 * (cs.length : ℚ) * ((2 : ℚ) ^ (-53 : ℤ) * fl capacity) := by
  intro cs
  induction cs with
  | nil =>
    intro b ts _ _ _ hb0 _ _
    simp [allowedSumF64, forwardTravel, hb0]
  | cons c rest ih =>
    intro b ts hts h1 hx hx0 hxC hq
    obtain ⟨hpos, hreq, hnow⟩ := hq c (by simp)
    have hq2 : ∀ x ∈ rest, 0 < x.2 ∧ x.2 ≤ 2 ^ 53 ∧ |x.1| ≤ 2 ^ 52 :=
      fun x hx => hq x (by simp [hx])
    let a : ScriptArgs := ⟨rate, capacity, c.1, c.2, ttl⟩
    have hz0 : 0 ≤ refilledF64 a (some b) :=
      refilledF64_nonneg a (some b) hC hR (fun b2 h2 => by cases h2; exact hx0)
    obtain ⟨d1, d2, d3, d4, d5⟩ := debitF64 a (some b) hz0 hpos hreq
    have hfill := refilledF64_some_le a b ts hts h1 hnow hx hx0 hR
    have hstore : (luaSourceF64 a (some b)).stored.timestamp = ((c.1 : ℤ) : ℚ) := by
      rw [d1]; exact fl_now_eq c.1 hnow
    have hih := ih (luaSourceF64 a (some b)).stored c.1 hstore hnow d2 d3 d4 hq2
    have htravel : forwardTravel ts (c :: rest)
        = max 0 (c.1 - ts) + forwardTravel c.1 rest := rfl
    have hunfold : allowedSumF64 rate capacity ttl (some b) (c :: rest)
        = (if (luaSourceF64 a (some b)).result = 1 then c.2 else 0)
          + allowedSumF64 rate capacity ttl (some (luaSourceF64 a (some b)).stored) rest := rfl
    have hu := unit_roundoff_pos
    have hu4 := unit_roundoff_le
    have e1 : a.requested = c.2 := rfl
    have e2 : a.now = c.1 := rfl
    have e3 : fl a.rate = fl rate := rfl
    have e4 : fl a.capacity = fl capacity := rfl
    rw [e1, e4] at d5
    rw [e2, e3] at hfill
    rw [hunfold, htravel, Int.cast_add, Int.cast_add, List.length_cons]
    push_cast
    have hxu : (2 : ℚ) ^ (-53 : ℤ) * b.tokens
        ≤ (2 : ℚ) ^ (-53 : ℤ) * (fl capacity * (1 + (2 : ℚ) ^ (-53 : ℤ))) :=
      mul_le_mul_of_nonneg_left hxC (le_of_lt hu)
    have huC : 0 ≤ (2 : ℚ) ^ (-53 : ℤ) * fl capacity := mul_nonneg (le_of_lt hu) hC
    push_cast at hfill d5 hih
    have huu : (2 : ℚ) ^ (-53 : ℤ) * fl capacity * (2 : ℚ) ^ (-53 : ℤ)
        ≤ (2 : ℚ) ^ (-53 : ℤ) * fl capacity * (1 / 4) :=
      mul_le_mul_of_nonneg_left hu4 huC
    generalize (2 : ℚ) ^ (-53 : ℤ) = u at *
    generalize (if (luaSourceF64 a (some b)).result = 1 then (c.2 : ℚ) else 0) = A at *
    generalize ((allowedSumF64 rate capacity ttl (some (luaSourceF64 a (some b)).stored) rest : ℤ) : ℚ) = S at *
    generalize (luaSourceF64 a (some b)).stored.tokens = x1 at *
    generalize refilledF64 a (some b) = z at *
    generalize ((forwardTravel c.1 rest : ℤ) : ℚ) = Fr at *
    generalize (rest.length : ℚ) = L at *
    generalize fl rate = R at *
    generalize fl capacity = C at *
    generalize b.tokens = x at *
    generalize (max (0 : ℚ) ((c.1 : ℚ) - (ts : ℚ))) = D at *
    nlinarith [hfill, d5, hih, hxu, huC, huu]

lemma first_runF64 (rate capacity : ℚ) (ttl : ℤ) (c : ℤ × ℤ) (hC : 0 ≤ fl capacity)
    (hpos : 0 < c.2) (hreq : c.2 ≤ 2 ^ 53) (hnow : |c.1| ≤ 2 ^ 52) :
    (luaSourceF64 ⟨rate, capacity, c.1, c.2, ttl⟩ none).stored.timestamp = ((c.1 : ℤ) : ℚ) ∧
    fl (luaSourceF64 ⟨rate, capacity, c.1, c.2, ttl⟩ none).stored.tokens
      = (luaSourceF64 ⟨rate, capacity, c.1, c.2, ttl⟩ none).stored.tokens ∧
    0 ≤ (luaSourceF64 ⟨rate, capacity, c.1, c.2, ttl⟩ none).stored.tokens ∧
    (luaSourceF64 ⟨rate, capacity, c.1, c.2, ttl⟩ none).stored.tokens
      ≤ fl capacity * (1 + (2 : ℚ) ^ (-53 : ℤ)) ∧
    (((if (luaSourceF64 ⟨rate, capacity, c.1, c.2, ttl⟩ none).result = 1 then c.2 else 0 : ℤ) : ℚ))
      + (luaSourceF64 ⟨rate, capacity, c.1, c.2, ttl⟩ none).stored.tokens
      ≤ fl capacity + (2 : ℚ) ^ (-53 : ℤ) * fl capacity := by
  have hz : refilledF64 ⟨rate, capacity, c.1, c.2, ttl⟩ none = fl capacity := refilledF64_none _
  obtain ⟨d1, d2, d3, d4, d5⟩ := debitF64 ⟨rate, capacity, c.1, c.2, ttl⟩ none
    (by rw [hz]; exact hC) hpos hreq
  rw [hz] at d5
  exact ⟨by rw [d1]; exact fl_now_eq c.1 hnow, d2, d3, d4, d5⟩

lemma forwardTravel_sorted (cs : List (ℤ × ℤ)) :
    ∀ t : ℤ, List.Pairwise (fun x y => x ≤ y) (t :: cs.map Prod.fst) →
      forwardTravel t cs = lastNow t cs - t := by
  induction cs with
  | nil => intro t _; simp [forwardTravel, lastNow]
  | cons c rest ih =>
    intro t hs
    have hs2 := List.pairwise_cons.mp hs
    have htc : t ≤ c.1 := hs2.1 c.1 (by simp)
    have hrest : List.Pairwise (fun x y => x ≤ y) (c.1 :: rest.map Prod.fst) := by
      simpa using hs2.2
    have h1 : forwardTravel t (c :: rest) = max 0 (c.1 - t) + forwardTravel c.1 rest := rfl
    have h2 : lastNow t (c :: rest) = lastNow c.1 rest := rfl
    rw [h1, h2, ih c.1 hrest, max_eq_right (by omega)]
    ring

lemma SecondsF64_six : SecondsF64 6000000000 = 6 := by
  have h1 : Int.tdiv 6000000000 Second = 6 := by decide
  have h2 : Int.tmod 6000000000 Second = 0 := by decide
  have h6 : fl (6 : ℚ) = 6 := fl_ofInt_small 6 6 (by norm_num) (by norm_num)
  unfold SecondsF64
  rw [h1, h2]
  norm_num [fl_zero, h6]

/-- C2, as stated, fails in double arithmetic: `New(client, 1, 6 * time.Second)`
has capacity 1 and rate `fl(1 / 6)` (as `New(client, 10, time.Minute)` has);
single-token runs at times 0 and 6 are both allowed, because `6 * rate` rounds
to 1, and the total 2 exceeds `capacity + rate * (6 - 0)`. -/
theorem rate_bound_float64_counterexample :
    NewF64 1 6000000000 = .ok ⟨1, 6004799503160661 / 36028797018963968, 12000000000⟩ ∧
    runResultsF64 (6004799503160661 / 36028797018963968) 1 12 none [(0, 1), (6, 1)] = [1, 1] ∧
    allowedSumF64 (6004799503160661 / 36028797018963968) 1 12 none [(0, 1), (6, 1)] = 2 ∧
    ¬ ((allowedSumF64 (6004799503160661 / 36028797018963968) 1 12 none [(0, 1), (6, 1)] : ℚ)
        ≤ 1 + 6004799503160661 / 36028797018963968 * (((6 : ℤ) : ℚ) - ((0 : ℤ) : ℚ))) := by
  have hnew : NewF64 1 6000000000
      = .ok ⟨1, 6004799503160661 / 36028797018963968, 12000000000⟩ := by
    rw [NewF64_ok 1 6000000000 (by decide) (by decide), SecondsF64_six]
    have hw : wrapInt64 (6000000000 * 2) = 12000000000 := by decide
    rw [hw]
    norm_num [fl_one, fl_one_sixth]
  have s1 : luaSourceF64 ⟨6004799503160661 / 36028797018963968, 1, 0, 1, 12⟩ none
      = ⟨⟨0, 0⟩, 12, 1⟩ := first_run_one _ 12
  have r2 : refilledF64 ⟨6004799503160661 / 36028797018963968, 1, 6, 1, 12⟩
      (some ⟨0, 0⟩) = 1 := by
    rw [refilledF64_at _ 1 12 6 1 0 6 0 0 1 1 (by norm_num) (by norm_num) (by norm_num)
      fl_zero (by decide)
      (by rw [fl_q]; exact_mod_cast fl_six_q) (by norm_num [fl_one])]
    norm_num [fl_one]
  have s2 : luaSourceF64 ⟨6004799503160661 / 36028797018963968, 1, 6, 1, 12⟩
      (some ⟨0, 0⟩) = ⟨⟨0, 6⟩, 12, 1⟩ := by
    rw [luaSourceF64_eq, r2]
    have h6 : fl (6 : ℚ) = 6 := fl_ofInt_small 6 6 (by norm_num) (by norm_num)
    norm_num [fl_one, fl_zero, h6]
  have hsum : allowedSumF64 (6004799503160661 / 36028797018963968) 1 12 none [(0, 1), (6, 1)]
      = 2 := by
    simp only [allowedSumF64, s1, s2]
    norm_num
  refine ⟨hnew, ?_, hsum, ?_⟩
  · simp only [runResultsF64, s1, s2]
  · rw [hsum]
    norm_num

/-- C2 (amended): let capacity and rate be positive doubles, and let the runs
start from an absent bucket with non-decreasing `now` values of absolute value
at most `2^52` and requested amounts between 1 and `2^53`.  The allowed total
is at most `capacity * (1 + 3 * n * 2^-53) + rate * (t_n - t_1) * (1 + 2^-53)^2`,
where `n` is the number of runs. -/
theorem rate_bound_float64 (rate capacity : ℚ) (ttl : ℤ) (hc : 0 < capacity)
    (hr : 0 < rate) (hcd : fl capacity = capacity) (hrd : fl rate = rate)
    (c : ℤ × ℤ) (cs : List (ℤ × ℤ))
    (hsorted : List.Pairwise (fun x y => x ≤ y) ((c :: cs).map Prod.fst))
    (hq : ∀ x ∈ c :: cs, 0 < x.2 ∧ x.2 ≤ 2 ^ 53 ∧ |x.1| ≤ 2 ^ 52) :
    (allowedSumF64 rate capacity ttl none (c :: cs) : ℚ) ≤
      capacity * (1 + 3 * ((cs.length : ℚ) + 1) * (2 : ℚ) ^ (-53 : ℤ))
        + rate * ((lastNow c.1 (c :: cs) : ℚ) - (c.1 : ℚ)) * (1 + (2 : ℚ) ^ (-53 : ℤ)) ^ 2 := by
  obtain ⟨hpos, hreq, hnow⟩ := hq c (by simp)
  have hq2 : ∀ x ∈ cs, 0 < x.2 ∧ x.2 ≤ 2 ^ 53 ∧ |x.1| ≤ 2 ^ 52 :=
    fun x hx => hq x (by simp [hx])
  have hC : 0 ≤ fl capacity := by rw [hcd]; exact le_of_lt hc
  have hR : 0 ≤ fl rate := by rw [hrd]; exact le_of_lt hr
  obtain ⟨f1, f2, f3, f4, f5⟩ := first_runF64 rate capacity ttl c hC hpos hreq hnow
  have hrest := allowedSumF64_le rate capacity ttl hC hR cs
    (luaSourceF64 ⟨rate, capacity, c.1, c.2, ttl⟩ none).stored c.1 f1 hnow f2 f3 f4 hq2
  have htr : forwardTravel c.1 cs = lastNow c.1 (c :: cs) - c.1 :=
    forwardTravel_sorted cs c.1 (by simpa using hsorted)
  have hunfold : allowedSumF64 rate capacity ttl none (c :: cs)
      = (if (luaSourceF64 ⟨rate, capacity, c.1, c.2, ttl⟩ none).result = 1 then c.2 else 0)
        + allowedSumF64 rate capacity ttl
            (some (luaSourceF64 ⟨rate, capacity, c.1, c.2, ttl⟩ none).stored) cs := rfl
  rw [hunfold, Int.cast_add]
  rw [hcd, hrd, htr, Int.cast_sub] at hrest
  rw [hcd] at f5
  have hu := unit_roundoff_pos
  generalize (2 : ℚ) ^ (-53 : ℤ) = u at *
  generalize (((if (luaSourceF64 ⟨rate, capacity, c.1, c.2, ttl⟩ none).result = 1
    then c.2 else 0 : ℤ) : ℚ)) = A at *
  generalize ((allowedSumF64 rate capacity ttl
    (some (luaSourceF64 ⟨rate, capacity, c.1, c.2, ttl⟩ none).stored) cs : ℤ) : ℚ) = S at *
  generalize (luaSourceF64 ⟨rate, capacity, c.1, c.2, ttl⟩ none).stored.tokens = x1 at *
  generalize (cs.length : ℚ) = L at *
  nlinarith [f5, hrest, mul_pos hu hc]

/-- Witness of C2 (amended): capacity 1, rate `fl(1 / 6)`, single-token runs at
times 0 and 6. -/
theorem rate_bound_float64_witness :
    (allowedSumF64 (6004799503160661 / 36028797018963968) 1 12 none [(0, 1), (6, 1)] : ℚ) ≤
      1 * (1 + 3 * ((([(6, 1)] : List (ℤ × ℤ)).length : ℚ) + 1) * (2 : ℚ) ^ (-53 : ℤ))
        + 6004799503160661 / 36028797018963968
          * ((lastNow 0 [(0, 1), (6, 1)] : ℚ) - ((0 : ℤ) : ℚ)) * (1 + (2 : ℚ) ^ (-53 : ℤ)) ^ 2 :=
  rate_bound_float64 (6004799503160661 / 36028797018963968) 1 12 (by norm_num) (by norm_num)
    fl_one fl_q (0, 1) [(6, 1)] (by simp) (by
      intro x hx
      simp only [List.mem_cons, List.mem_singleton, List.not_mem_nil, or_false] at hx
      rcases hx with rfl | rfl <;> norm_num)

/-- C15 (amended): let capacity and rate be positive doubles, and let the runs
start from an absent bucket with `now` values in any order, of absolute value
at most `2^52`, and requested amounts between 1 and `2^53`.  The allowed total
is at most `capacity * (1 + 3 * n * 2^-53) + rate * F * (1 + 2^-53)^2`, where
`n` is the number of runs and `F` the total forward movement of `now`, the sum
over successive runs of `max(0, now_i - now_(i-1))`. -/
theorem skewed_rate_bound_float64 (rate capacity : ℚ) (ttl : ℤ) (hc : 0 < capacity)
    (hr : 0 < rate) (hcd : fl capacity = capacity) (hrd : fl rate = rate)
    (c : ℤ × ℤ) (cs : List (ℤ × ℤ))
    (hq : ∀ x ∈ c :: cs, 0 < x.2 ∧ x.2 ≤ 2 ^ 53 ∧ |x.1| ≤ 2 ^ 52) :
    (allowedSumF64 rate capacity ttl none (c :: cs) : ℚ) ≤
      capacity * (1 + 3 * ((cs.length : ℚ) + 1) * (2 : ℚ) ^ (-53 : ℤ))
        + rate * (forwardTravel c.1 cs : ℚ) * (1 + (2 : ℚ) ^ (-53 : ℤ)) ^ 2 := by
  obtain ⟨hpos, hreq, hnow⟩ := hq c (by simp)
  have hq2 : ∀ x ∈ cs, 0 < x.2 ∧ x.2 ≤ 2 ^ 53 ∧ |x.1| ≤ 2 ^ 52 :=
    fun x hx => hq x (by simp [hx])
  have hC : 0 ≤ fl capacity := by rw [hcd]; exact le_of_lt hc
  have hR : 0 ≤ fl rate := by rw [hrd]; exact le_of_lt hr
  obtain ⟨f1, f2, f3, f4, f5⟩ := first_runF64 rate capacity ttl c hC hpos hreq hnow
  have hrest := allowedSumF64_le rate capacity ttl hC hR cs
    (luaSourceF64 ⟨rate, capacity, c.1, c.2, ttl⟩ none).stored c.1 f1 hnow f2 f3 f4 hq2
  have hunfold : allowedSumF64 rate capacity ttl none (c :: cs)
      = (if (luaSourceF64 ⟨rate, capacity, c.1, c.2, ttl⟩ none).result = 1 then c.2 else 0)
        + allowedSumF64 rate capacity ttl
            (some (luaSourceF64 ⟨rate, capacity, c.1, c.2, ttl⟩ none).stored) cs := rfl
  rw [hunfold, Int.cast_add]
  rw [hcd, hrd] at hrest
  rw [hcd] at f5
  have hu := unit_roundoff_pos
  generalize (2 : ℚ) ^ (-53 : ℤ) = u at *
  generalize (((if (luaSourceF64 ⟨rate, capacity, c.1, c.2, ttl⟩ none).result = 1
    then c.2 else 0 : ℤ) : ℚ)) = A at *
  generalize ((allowedSumF64 rate capacity ttl
    (some (luaSourceF64 ⟨rate, capacity, c.1, c.2, ttl⟩ none).stored) cs : ℤ) : ℚ) = S at *
  generalize (luaSourceF64 ⟨rate, capacity, c.1, c.2, ttl⟩ none).stored.tokens = x1 at *
  generalize ((forwardTravel c.1 cs : ℤ) : ℚ) = Fr at *
  generalize (cs.length : ℚ) = L at *
  nlinarith [f5, hrest, mul_pos hu hc]

/-- Witness of C15 (amended): capacity 1, rate 1, single-token runs at times
1, 0, 1. -/
theorem skewed_rate_bound_float64_witness :
    (allowedSumF64 1 1 2 none [(1, 1), (0, 1), (1, 1)] : ℚ) ≤
      1 * (1 + 3 * ((([(0, 1), (1, 1)] : List (ℤ × ℤ)).length : ℚ) + 1) * (2 : ℚ) ^ (-53 : ℤ))
        + 1 * (forwardTravel 1 [(0, 1), (1, 1)] : ℚ) * (1 + (2 : ℚ) ^ (-53 : ℤ)) ^ 2 :=
  skewed_rate_bound_float64 1 1 2 (by norm_num) (by norm_num) fl_one fl_one (1, 1)
    [(0, 1), (1, 1)] (by
      intro x hx
      simp only [List.mem_cons, List.mem_singleton, List.not_mem_nil, or_false] at hx
      rcases hx with rfl | rfl | rfl <;> norm_num)

/-! ## C13 in double arithmetic: a denied probe -/

/-- One refill in double arithmetic against the exact refill: the two capped
counts differ by at most five roundings of the capacity. -/
lemma refill_approx (C x d R : ℚ) (hC : 0 ≤ C) (hx : 0 ≤ x) (hd : 0 ≤ d) (hR : 0 ≤ R) :
    |min C (fl (x + fl (d * R))) - min C (x + d * R)| ≤ 5 * ((2 : ℚ) ^ (-53 : ℤ) * C) := by
  have hu := unit_roundoff_pos
  have hu8 : (2 : ℚ) ^ (-53 : ℤ) ≤ 1 / 8 := by norm_num
  have hP : 0 ≤ d * R := mul_nonneg hd hR
  have e1 := fl_abs_sub_le (d * R)
  rw [abs_of_nonneg hP, abs_le] at e1
  have hfP := fl_nonneg _ hP
  have hS : 0 ≤ x + fl (d * R) := add_nonneg hx hfP
  have e2 := fl_abs_sub_le (x + fl (d * R))
  rw [abs_of_nonneg hS, abs_le] at e2
  obtain ⟨e1l, e1u⟩ := e1
  obtain ⟨e2l, e2u⟩ := e2
  generalize (2 : ℚ) ^ (-53 : ℤ) = u at *
  generalize fl (x + fl (d * R)) = F at *
  generalize fl (d * R) = fP at *
  generalize d * R = P at *
  have huP : 0 ≤ u * P := mul_nonneg (le_of_lt hu) hP
  have huC : 0 ≤ u * C := mul_nonneg (le_of_lt hu) hC
  have huS : u * (x + fP) ≤ u * (x + P + u * P) :=
    mul_le_mul_of_nonneg_left (by linarith) (le_of_lt hu)
  have huux : 0 ≤ u * x := mul_nonneg (le_of_lt hu) hx
  have huuP : u * (u * P) ≤ 1 / 8 * (u * P) := mul_le_mul_of_nonneg_right hu8 huP
  rcases le_or_lt (x + P) (2 * C) with hsmall | hbig
  · have hA : u * (x + P) ≤ u * (2 * C) := mul_le_mul_of_nonneg_left hsmall (le_of_lt hu)
    have hdiff : |F - (x + P)| ≤ 5 * (u * C) := by
      rw [abs_le]
      constructor <;> nlinarith
    refine le_trans (abs_min_sub_min_le_max C F C (x + P)) ?_
    rw [sub_self, abs_zero]
    exact max_le (by linarith) hdiff
  · have hF : C ≤ F := by
      have h8 : u * (x + P) ≤ 1 / 8 * (x + P) :=
        mul_le_mul_of_nonneg_right hu8 (by linarith)
      have h8P : u * P ≤ 1 / 8 * P := mul_le_mul_of_nonneg_right hu8 hP
      nlinarith
    rw [min_eq_left hF, min_eq_left (by linarith), sub_self, abs_zero]
    linarith

/-- Two refills in a row against one refill over the whole interval, in double
arithmetic: the capped counts differ by at most fifteen roundings of the
capacity. -/
lemma refill_twice_approx (C x R : ℚ) (d1 d2 : ℤ) (hC : 0 ≤ C) (hx : 0 ≤ x) (hR : 0 ≤ R)
    (hd1 : 0 ≤ d1) (hd2 : 0 ≤ d2) :
    |min C (fl (min C (fl (x + fl ((d1 : ℚ) * R))) + fl ((d2 : ℚ) * R)))
      - min C (fl (x + fl (((d1 + d2 : ℤ) : ℚ) * R)))| ≤ 15 * ((2 : ℚ) ^ (-53 : ℤ) * C) := by
  have hd1q : (0 : ℚ) ≤ (d1 : ℚ) := by exact_mod_cast hd1
  have hd2q : (0 : ℚ) ≤ (d2 : ℚ) := by exact_mod_cast hd2
  have hdq : (0 : ℚ) ≤ ((d1 + d2 : ℤ) : ℚ) := by exact_mod_cast add_nonneg hd1 hd2
  have hz1 : 0 ≤ min C (fl (x + fl ((d1 : ℚ) * R))) :=
    le_min hC (fl_nonneg _ (add_nonneg hx (fl_nonneg _ (mul_nonneg hd1q hR))))
  have A1 := refill_approx C x (d1 : ℚ) R hC hx hd1q hR
  have A2 := refill_approx C (min C (fl (x + fl ((d1 : ℚ) * R)))) (d2 : ℚ) R hC hz1 hd2q hR
  have A3 := refill_approx C x ((d1 + d2 : ℤ) : ℚ) R hC hx hdq hR
  have L := abs_min_sub_min_le_max C (min C (fl (x + fl ((d1 : ℚ) * R))) + (d2 : ℚ) * R)
    C (min C (x + (d1 : ℚ) * R) + (d2 : ℚ) * R)
  rw [sub_self, abs_zero, add_sub_add_right_eq_sub,
    max_eq_right (abs_nonneg _)] at L
  have M := min_min_add C (x + (d1 : ℚ) * R) ((d2 : ℚ) * R) (mul_nonneg hd2q hR)
  have hsum : x + (d1 : ℚ) * R + (d2 : ℚ) * R = x + ((d1 + d2 : ℤ) : ℚ) * R := by
    push_cast; ring
  rw [hsum] at M
  rw [M] at L
  have L2 := le_trans L A1
  rw [abs_le] at A2 A3 L2 ⊢
  constructor <;> linarith [A2.1, A2.2, A3.1, A3.2, L2.1, L2.2]

/-- A denied run followed by a later run, against the later run alone: the
refilled counts are within fifteen roundings of the capacity, and equal on an
absent bucket. -/
lemma denied_probe_refillF64 (rate capacity : ℚ) (ttl : ℤ) (hc : 0 < capacity) (hr : 0 ≤ rate)
    (st : Option BucketF64) (ts t1 t2 req1 req2 : ℤ)
    (hst : ∀ b, st = some b → b.timestamp = (ts : ℚ) ∧ 0 ≤ b.tokens)
    (hts : ts ≤ t1) (h12 : t1 ≤ t2)
    (hr0 : |ts| ≤ 2 ^ 52) (hr1 : |t1| ≤ 2 ^ 52) (hr2 : |t2| ≤ 2 ^ 52) :
    |refilledF64 ⟨rate, capacity, t2, req2, ttl⟩
        (some ⟨refilledF64 ⟨rate, capacity, t1, req1, ttl⟩ st, (t1 : ℚ)⟩)
      - refilledF64 ⟨rate, capacity, t2, req2, ttl⟩ st|
      ≤ 15 * ((2 : ℚ) ^ (-53 : ℤ) * fl capacity) ∧
    (st = none →
      refilledF64 ⟨rate, capacity, t2, req2, ttl⟩
        (some ⟨refilledF64 ⟨rate, capacity, t1, req1, ttl⟩ st, (t1 : ℚ)⟩)
      = refilledF64 ⟨rate, capacity, t2, req2, ttl⟩ st) := by
  have hC : 0 < fl capacity := fl_pos _ hc
  have hR : 0 ≤ fl rate := fl_nonneg _ hr
  have hu := unit_roundoff_pos
  have hd2 : max 0 (t2 - t1) = t2 - t1 := max_eq_right (by omega)
  have hstep : refilledF64 ⟨rate, capacity, t2, req2, ttl⟩
      (some ⟨refilledF64 ⟨rate, capacity, t1, req1, ttl⟩ st, (t1 : ℚ)⟩)
      = min (fl capacity) (fl (refilledF64 ⟨rate, capacity, t1, req1, ttl⟩ st
          + fl (((t2 - t1 : ℤ) : ℚ) * fl rate))) := by
    rw [refilledF64_present ⟨rate, capacity, t2, req2, ttl⟩ _ t1 rfl hr1 hr2]
    show min (fl capacity) (fl (fl (refilledF64 ⟨rate, capacity, t1, req1, ttl⟩ st)
      + fl (((max 0 (t2 - t1) : ℤ) : ℚ) * fl rate))) = _
    rw [refilledF64_double, hd2]
  have hnone : st = none →
      refilledF64 ⟨rate, capacity, t2, req2, ttl⟩
        (some ⟨refilledF64 ⟨rate, capacity, t1, req1, ttl⟩ st, (t1 : ℚ)⟩)
      = refilledF64 ⟨rate, capacity, t2, req2, ttl⟩ st := by
    intro h
    rw [hstep, h, refilledF64_none, refilledF64_none]
    show min (fl capacity) (fl (fl capacity + fl (((t2 - t1 : ℤ) : ℚ) * fl rate))) = fl capacity
    have hp : 0 ≤ fl (((t2 - t1 : ℤ) : ℚ) * fl rate) :=
      fl_nonneg _ (mul_nonneg (by exact_mod_cast (by omega : 0 ≤ t2 - t1)) hR)
    exact min_eq_left (fl_ge_of_double_le _ _ (fl_idem _) hC (by linarith))
  refine ⟨?_, hnone⟩
  cases st with
  | none =>
    rw [hnone rfl, sub_self, abs_zero]
    exact mul_nonneg (by norm_num) (mul_nonneg (le_of_lt hu) (le_of_lt hC))
  | some b =>
    obtain ⟨hbts, hb0⟩ := hst b rfl
    have hd1 : max 0 (t1 - ts) = t1 - ts := max_eq_right (by omega)
    have hd : max 0 (t2 - ts) = (t1 - ts) + (t2 - t1) := by
      rw [max_eq_right (by omega)]; ring
    have e1 : refilledF64 ⟨rate, capacity, t1, req1, ttl⟩ (some b)
        = min (fl capacity) (fl (fl b.tokens + fl (((t1 - ts : ℤ) : ℚ) * fl rate))) := by
      rw [refilledF64_present ⟨rate, capacity, t1, req1, ttl⟩ b ts hbts hr0 hr1]
      show min (fl capacity) (fl (fl b.tokens
        + fl (((max 0 (t1 - ts) : ℤ) : ℚ) * fl rate))) = _
      rw [hd1]
    have e2 : refilledF64 ⟨rate, capacity, t2, req2, ttl⟩ (some b)
        = min (fl capacity) (fl (fl b.tokens
            + fl ((((t1 - ts) + (t2 - t1) : ℤ) : ℚ) * fl rate))) := by
      rw [refilledF64_present ⟨rate, capacity, t2, req2, ttl⟩ b ts hbts hr0 hr2]
      show min (fl capacity) (fl (fl b.tokens
        + fl (((max 0 (t2 - ts) : ℤ) : ℚ) * fl rate))) = _
      rw [hd]
    rw [hstep, e1, e2]
    exact refill_twice_approx (fl capacity) (fl b.tokens) (fl rate) (t1 - ts) (t2 - t1)
      (le_of_lt hC) (fl_nonneg _ hb0) hR (by omega) (by omega)

/-- Two runs with the same arguments on states whose refilled counts are
within `ε`: the decisions differ only when the requested amount is within `ε`
of the count, and equal decisions store token counts within `ε` and two
roundings of the capacity. -/
lemma luaSourceF64_close (a : ScriptArgs) (d1 d2 : Option BucketF64) (ε : ℚ)
    (hC : 0 ≤ fl a.capacity) (hq0 : 0 ≤ fl (a.requested : ℚ))
    (hkey : |refilledF64 a d1 - refilledF64 a d2| ≤ ε) :
    ((luaSourceF64 a d1).result ≠ (luaSourceF64 a d2).result →
      |fl (a.requested : ℚ) - refilledF64 a d2| ≤ ε) ∧
    ((luaSourceF64 a d1).result = (luaSourceF64 a d2).result →
      |(luaSourceF64 a d1).stored.tokens - (luaSourceF64 a d2).stored.tokens|
        ≤ ε + 2 * ((2 : ℚ) ^ (-53 : ℤ) * fl a.capacity)) := by
  have hu := unit_roundoff_pos
  have hzC := refilledF64_le_capacity a d1
  have hwC := refilledF64_le_capacity a d2
  rw [resultF64_eq, resultF64_eq, storedF64_tokens_eq, storedF64_tokens_eq]
  rw [abs_le] at hkey
  obtain ⟨kl, ku⟩ := hkey
  generalize refilledF64 a d1 = z at *
  generalize refilledF64 a d2 = w at *
  generalize fl (a.requested : ℚ) = q at *
  generalize fl a.capacity = C at *
  have huC : 0 ≤ (2 : ℚ) ^ (-53 : ℤ) * C := mul_nonneg (le_of_lt hu) hC
  by_cases hz : q ≤ z
  · by_cases hw : q ≤ w
    · rw [if_pos hz, if_pos hw, if_pos hz, if_pos hw]
      refine ⟨fun hne => absurd rfl hne, fun _ => ?_⟩
      have a1 := fl_abs_sub_le (z - q)
      have a2 := fl_abs_sub_le (w - q)
      rw [abs_of_nonneg (by linarith : 0 ≤ z - q), abs_le] at a1
      rw [abs_of_nonneg (by linarith : 0 ≤ w - q), abs_le] at a2
      rw [abs_le]
      obtain ⟨a1l, a1u⟩ := a1
      obtain ⟨a2l, a2u⟩ := a2
      generalize (2 : ℚ) ^ (-53 : ℤ) = u at *
      generalize fl (z - q) = F1 at *
      generalize fl (w - q) = F2 at *
      have b1 : u * (z - q) ≤ u * C := mul_le_mul_of_nonneg_left (by linarith) (le_of_lt hu)
      have b2 : u * (w - q) ≤ u * C := mul_le_mul_of_nonneg_left (by linarith) (le_of_lt hu)
      constructor <;> linarith
    · rw [if_pos hz, if_neg hw, if_pos hz, if_neg hw]
      have hw2 := not_le.mp hw
      refine ⟨fun _ => ?_, fun h => absurd h (by decide)⟩
      rw [abs_le]
      constructor <;> linarith
  · by_cases hw : q ≤ w
    · rw [if_neg hz, if_pos hw, if_neg hz, if_pos hw]
      have hz2 := not_le.mp hz
      refine ⟨fun _ => ?_, fun h => absurd h (by decide)⟩
      rw [abs_le]
      constructor <;> linarith
    · rw [if_neg hz, if_neg hw, if_neg hz, if_neg hw]
      refine ⟨fun hne => absurd rfl hne, fun _ => ?_⟩
      rw [abs_le]
      constructor <;> linarith

/-- C13, as stated, fails in double arithmetic: capacity 1, rate `fl(1 / 6)`,
and the bucket `(tokens = 0, timestamp = 0)` that an allowed request at time 0
leaves.  A single-token request at time 1 is
denied; after it a single-token request at time 6 is denied, because
`rate + 5 * rate` rounds to `1 - 2^-53`; without it the request at time 6 is
allowed, because `6 * rate` rounds to 1. -/
theorem denied_probe_float64_counterexample :
    runStateF64 (6004799503160661 / 36028797018963968) 1 12 none [(0, 1)] = some ⟨0, 0⟩ ∧
    (luaSourceF64 ⟨6004799503160661 / 36028797018963968, 1, 1, 1, 12⟩ (some ⟨0, 0⟩)).result = 0 ∧
    (luaSourceF64 ⟨6004799503160661 / 36028797018963968, 1, 6, 1, 12⟩
      (some (luaSourceF64 ⟨6004799503160661 / 36028797018963968, 1, 1, 1, 12⟩
        (some ⟨0, 0⟩)).stored)).result = 0 ∧
    (luaSourceF64 ⟨6004799503160661 / 36028797018963968, 1, 6, 1, 12⟩ (some ⟨0, 0⟩)).result = 1 := by
  have r1 : refilledF64 ⟨6004799503160661 / 36028797018963968, 1, 1, 1, 12⟩ (some ⟨0, 0⟩)
      = 6004799503160661 / 36028797018963968 := by
    rw [refilledF64_at _ 1 12 1 1 0 1 0 0 (6004799503160661 / 36028797018963968)
      (6004799503160661 / 36028797018963968) (by norm_num) (by norm_num) (by norm_num)
      fl_zero (by decide)
      (by rw [fl_q]; norm_num [fl_q]) (by rw [zero_add]; exact fl_q)]
    norm_num [fl_one]
  have s1 : luaSourceF64 ⟨6004799503160661 / 36028797018963968, 1, 1, 1, 12⟩ (some ⟨0, 0⟩)
      = ⟨⟨6004799503160661 / 36028797018963968, 1⟩, 12, 0⟩ := by
    rw [luaSourceF64_eq, r1]
    norm_num [fl_one]
  have r2 : refilledF64 ⟨6004799503160661 / 36028797018963968, 1, 6, 1, 12⟩
      (some ⟨6004799503160661 / 36028797018963968, 1⟩)
      = 9007199254740991 / 9007199254740992 := by
    rw [refilledF64_at _ 1 12 6 1 1 5 (6004799503160661 / 36028797018963968) 1
      (7505999378950826 / 9007199254740992)
      (9007199254740991 / 9007199254740992) (by norm_num) (by norm_num) (by norm_num)
      fl_q (by decide)
      (by rw [fl_q]; exact_mod_cast fl_five_q) fl_q_add_five_q]
    norm_num [fl_one]
  have r3 : refilledF64 ⟨6004799503160661 / 36028797018963968, 1, 6, 1, 12⟩ (some ⟨0, 0⟩) = 1 := by
    rw [refilledF64_at _ 1 12 6 1 0 6 0 0 1 1 (by norm_num) (by norm_num) (by norm_num)
      fl_zero (by decide)
      (by rw [fl_q]; exact_mod_cast fl_six_q) (by norm_num [fl_one])]
    norm_num [fl_one]
  refine ⟨runStateF64_first_one _ 12, by rw [s1], ?_, ?_⟩
  · rw [s1, resultF64_eq, r2]
    norm_num [fl_one]
  · rw [resultF64_eq, r3]
    norm_num [fl_one]

/-- C13 (amended): let the capacity be positive, the rate non-negative and the
bucket absent or present with non-negative tokens and timestamp `ts`, with
`ts <= t1 <= t2` of absolute value at most `2^52`, and let a request at `t1` be
denied.  A following request at `t2` for at least one token stores the same
timestamp and gets the same TTL as without the denied request; its refilled
count differs by at most `2^-49 * capacity`; the decision differs only if the
requested amount is within `2^-49 * capacity` of the refilled count; with equal
decisions the stored tokens differ by at most `2^-48 * capacity`; and on an
absent bucket the two runs coincide. -/
theorem denied_probe_float64 (rate capacity : ℚ) (ttl : ℤ) (hc : 0 < capacity) (hr : 0 ≤ rate)
    (st : Option BucketF64) (ts t1 t2 req1 req2 : ℤ)
    (hst : ∀ b, st = some b → b.timestamp = (ts : ℚ) ∧ 0 ≤ b.tokens)
    (hts : ts ≤ t1) (h12 : t1 ≤ t2)
    (hr0 : |ts| ≤ 2 ^ 52) (hr1 : |t1| ≤ 2 ^ 52) (hr2 : |t2| ≤ 2 ^ 52) (hq : 1 ≤ req2)
    (hden : (luaSourceF64 ⟨rate, capacity, t1, req1, ttl⟩ st).result = 0) :
    (luaSourceF64 ⟨rate, capacity, t2, req2, ttl⟩
        (some (luaSourceF64 ⟨rate, capacity, t1, req1, ttl⟩ st).stored)).stored.timestamp
      = (luaSourceF64 ⟨rate, capacity, t2, req2, ttl⟩ st).stored.timestamp ∧
    (luaSourceF64 ⟨rate, capacity, t2, req2, ttl⟩
        (some (luaSourceF64 ⟨rate, capacity, t1, req1, ttl⟩ st).stored)).expire
      = (luaSourceF64 ⟨rate, capacity, t2, req2, ttl⟩ st).expire ∧
    |refilledF64 ⟨rate, capacity, t2, req2, ttl⟩
        (some (luaSourceF64 ⟨rate, capacity, t1, req1, ttl⟩ st).stored)
      - refilledF64 ⟨rate, capacity, t2, req2, ttl⟩ st|
      ≤ (2 : ℚ) ^ (-49 : ℤ) * fl capacity ∧
    ((luaSourceF64 ⟨rate, capacity, t2, req2, ttl⟩
        (some (luaSourceF64 ⟨rate, capacity, t1, req1, ttl⟩ st).stored)).result
      ≠ (luaSourceF64 ⟨rate, capacity, t2, req2, ttl⟩ st).result →
      |fl (req2 : ℚ) - refilledF64 ⟨rate, capacity, t2, req2, ttl⟩ st|
        ≤ (2 : ℚ) ^ (-49 : ℤ) * fl capacity) ∧
    ((luaSourceF64 ⟨rate, capacity, t2, req2, ttl⟩
        (some (luaSourceF64 ⟨rate, capacity, t1, req1, ttl⟩ st).stored)).result
      = (luaSourceF64 ⟨rate, capacity, t2, req2, ttl⟩ st).result →
      |(luaSourceF64 ⟨rate, capacity, t2, req2, ttl⟩
          (some (luaSourceF64 ⟨rate, capacity, t1, req1, ttl⟩ st).stored)).stored.tokens
        - (luaSourceF64 ⟨rate, capacity, t2, req2, ttl⟩ st).stored.tokens|
        ≤ (2 : ℚ) ^ (-48 : ℤ) * fl capacity) ∧
    (st = none →
      luaSourceF64 ⟨rate, capacity, t2, req2, ttl⟩
          (some (luaSourceF64 ⟨rate, capacity, t1, req1, ttl⟩ st).stored)
        = luaSourceF64 ⟨rate, capacity, t2, req2, ttl⟩ st) := by
  have hC : 0 < fl capacity := fl_pos _ hc
  have hu := unit_roundoff_pos
  have hS1 : (luaSourceF64 ⟨rate, capacity, t1, req1, ttl⟩ st).stored
      = ⟨refilledF64 ⟨rate, capacity, t1, req1, ttl⟩ st, (t1 : ℚ)⟩ := by
    rw [denied_storedF64 _ _ hden]
    show (⟨_, fl ((t1 : ℤ) : ℚ)⟩ : BucketF64) = _
    rw [fl_now_eq t1 hr1]
  obtain ⟨hkey, hnone⟩ := denied_probe_refillF64 rate capacity ttl hc hr st ts t1 t2 req1 req2
    hst hts h12 hr0 hr1 hr2
  rw [hS1]
  have h49 : (2 : ℚ) ^ (-49 : ℤ) = 16 * (2 : ℚ) ^ (-53 : ℤ) := by norm_num
  have h48 : (2 : ℚ) ^ (-48 : ℤ) = 32 * (2 : ℚ) ^ (-53 : ℤ) := by norm_num
  have huC : 0 < (2 : ℚ) ^ (-53 : ℤ) * fl capacity := mul_pos hu hC
  have hq0 : (0 : ℚ) ≤ fl ((req2 : ℤ) : ℚ) :=
    fl_nonneg _ (by exact_mod_cast (by omega : (0 : ℤ) ≤ req2))
  obtain ⟨c1, c2⟩ := luaSourceF64_close ⟨rate, capacity, t2, req2, ttl⟩
    (some ⟨refilledF64 ⟨rate, capacity, t1, req1, ttl⟩ st, (t1 : ℚ)⟩) st
    (15 * ((2 : ℚ) ^ (-53 : ℤ) * fl capacity)) (le_of_lt hC) hq0 hkey
  refine ⟨by rw [storedF64_timestamp_eq, storedF64_timestamp_eq],
    by rw [expireF64_eq, expireF64_eq], ?_, ?_, ?_, ?_⟩
  · rw [h49]; linarith
  · intro hne
    refine le_trans (c1 hne) ?_
    rw [h49]; linarith
  · intro heq
    refine le_trans (c2 heq) ?_
    show 15 * ((2 : ℚ) ^ (-53 : ℤ) * fl capacity) + 2 * ((2 : ℚ) ^ (-53 : ℤ) * fl capacity)
      ≤ (2 : ℚ) ^ (-48 : ℤ) * fl capacity
    rw [h48]; linarith
  · intro h
    rw [luaSourceF64_eq, luaSourceF64_eq, hnone h]

/-- Witness of C13 (amended): capacity 3, rate 1; a four-token request at time
1 on `(tokens = 0, timestamp = 0)` is denied, and a request at time 2 follows. -/
theorem denied_probe_float64_witness :
    (luaSourceF64 ⟨1, 3, 1, 4, 2⟩ (some ⟨0, 0⟩)).result = 0 ∧
    (luaSourceF64 ⟨1, 3, 2, 1, 2⟩ (some (luaSourceF64 ⟨1, 3, 1, 4, 2⟩ (some ⟨0, 0⟩)).stored)).stored.timestamp = (luaSourceF64 ⟨1, 3, 2, 1, 2⟩ (some ⟨0, 0⟩)).stored.timestamp ∧
    (luaSourceF64 ⟨1, 3, 2, 1, 2⟩ (some (luaSourceF64 ⟨1, 3, 1, 4, 2⟩ (some ⟨0, 0⟩)).stored)).expire = (luaSourceF64 ⟨1, 3, 2, 1, 2⟩ (some ⟨0, 0⟩)).expire ∧
    |refilledF64 ⟨1, 3, 2, 1, 2⟩ (some (luaSourceF64 ⟨1, 3, 1, 4, 2⟩ (some ⟨0, 0⟩)).stored)
      - refilledF64 ⟨1, 3, 2, 1, 2⟩ (some ⟨0, 0⟩)| ≤ (2 : ℚ) ^ (-49 : ℤ) * fl 3 ∧
    ((luaSourceF64 ⟨1, 3, 2, 1, 2⟩ (some (luaSourceF64 ⟨1, 3, 1, 4, 2⟩ (some ⟨0, 0⟩)).stored)).result ≠ (luaSourceF64 ⟨1, 3, 2, 1, 2⟩ (some ⟨0, 0⟩)).result →
      |fl ((1 : ℤ) : ℚ) - refilledF64 ⟨1, 3, 2, 1, 2⟩ (some ⟨0, 0⟩)| ≤ (2 : ℚ) ^ (-49 : ℤ) * fl 3) ∧
    ((luaSourceF64 ⟨1, 3, 2, 1, 2⟩ (some (luaSourceF64 ⟨1, 3, 1, 4, 2⟩ (some ⟨0, 0⟩)).stored)).result = (luaSourceF64 ⟨1, 3, 2, 1, 2⟩ (some ⟨0, 0⟩)).result →
      |(luaSourceF64 ⟨1, 3, 2, 1, 2⟩ (some (luaSourceF64 ⟨1, 3, 1, 4, 2⟩ (some ⟨0, 0⟩)).stored)).stored.tokens - (luaSourceF64 ⟨1, 3, 2, 1, 2⟩ (some ⟨0, 0⟩)).stored.tokens| ≤ (2 : ℚ) ^ (-48 : ℤ) * fl 3) ∧
    ((some ⟨0, 0⟩ : Option BucketF64) = none → (luaSourceF64 ⟨1, 3, 2, 1, 2⟩ (some (luaSourceF64 ⟨1, 3, 1, 4, 2⟩ (some ⟨0, 0⟩)).stored)) = (luaSourceF64 ⟨1, 3, 2, 1, 2⟩ (some ⟨0, 0⟩))) :=
  have hden : (luaSourceF64 ⟨1, 3, 1, 4, 2⟩ (some ⟨0, 0⟩)).result = 0 :=
    (resultF64_zero_iff _ _).mpr (lt_of_le_of_lt (refilledF64_le_capacity _ _) (by
      show fl (3 : ℚ) < fl (((4 : ℤ) : ℚ))
      rw [fl_three]
      norm_num [fl_four]))
  ⟨hden, denied_probe_float64 1 3 2 (by norm_num) (by norm_num) (some ⟨0, 0⟩) 0 1 2 4 1
    (fun b h => by cases h; exact ⟨by norm_num, le_refl _⟩) (by decide) (by decide)
    (by norm_num) (by norm_num) (by norm_num) (by decide) hden⟩

/-! ## C5 in double arithmetic: refill after a denial -/

lemma runResultsF64_all_denied (rate capacity : ℚ) (ttl now : ℤ) (hnow : |now| ≤ 2 ^ 52) :
    ∀ (K : ℕ) (st : Option BucketF64),
      refilledF64 ⟨rate, capacity, now, 1, ttl⟩ st < 1 →
      runResultsF64 rate capacity ttl st (List.replicate K (now, 1)) = List.replicate K 0 := by
  intro K
  induction K with
  | zero => intro st _; rfl
  | succ K ih =>
    intro st hlt
    have hres : (luaSourceF64 ⟨rate, capacity, now, 1, ttl⟩ st).result = 0 :=
      (resultF64_zero_iff _ _).mpr (by rw [fl_one_int]; exact hlt)
    have hst := denied_storedF64 _ _ hres
    have hts : fl (((⟨rate, capacity, now, 1, ttl⟩ : ScriptArgs).now : ℤ) : ℚ) = (now : ℚ) :=
      fl_now_eq now hnow
    rw [hts] at hst
    have hnext : refilledF64 ⟨rate, capacity, now, 1, ttl⟩
        (some ⟨refilledF64 ⟨rate, capacity, now, 1, ttl⟩ st, (now : ℚ)⟩)
        = refilledF64 ⟨rate, capacity, now, 1, ttl⟩ st :=
      refilledF64_same_time ⟨rate, capacity, now, 1, ttl⟩ _ hnow (refilledF64_double _ _)
        (refilledF64_le_capacity _ _)
    have hrec := ih (some ⟨refilledF64 ⟨rate, capacity, now, 1, ttl⟩ st, (now : ℚ)⟩)
      (by rw [hnext]; exact hlt)
    have hunfold : runResultsF64 rate capacity ttl st ((now, 1) :: List.replicate K (now, 1))
        = (luaSourceF64 ⟨rate, capacity, now, 1, ttl⟩ st).result
          :: runResultsF64 rate capacity ttl
              (some (luaSourceF64 ⟨rate, capacity, now, 1, ttl⟩ st).stored)
              (List.replicate K (now, 1)) := rfl
    rw [List.replicate_succ, hunfold, hres, hst, hrec, List.replicate_succ]

/-- Single-token runs at one `now` in double arithmetic: as many are allowed
as there are whole tokens in the refilled bucket, and every later one is
denied. -/
lemma runResultsF64_floor (rate capacity : ℚ) (ttl now : ℤ) (K : ℕ) (hnow : |now| ≤ 2 ^ 52)
    (hC : fl capacity ≤ 9007199254740992) :
    ∀ (n : ℕ) (st : Option BucketF64),
      0 ≤ refilledF64 ⟨rate, capacity, now, 1, ttl⟩ st →
      ⌊refilledF64 ⟨rate, capacity, now, 1, ttl⟩ st⌋.toNat = n →
      runResultsF64 rate capacity ttl st (List.replicate (n + K) (now, 1))
        = List.replicate n 1 ++ List.replicate K 0 := by
  intro n
  induction n with
  | zero =>
    intro st h0 hn
    have hfl : ⌊refilledF64 ⟨rate, capacity, now, 1, ttl⟩ st⌋ < 1 := by
      have := Int.floor_nonneg.mpr h0
      omega
    have hlt : refilledF64 ⟨rate, capacity, now, 1, ttl⟩ st < 1 := by
      have := Int.floor_lt.mp hfl
      simpa using this
    simpa using runResultsF64_all_denied rate capacity ttl now hnow K st hlt
  | succ n ih =>
    intro st h0 hn
    have hfl : (1 : ℤ) ≤ ⌊refilledF64 ⟨rate, capacity, now, 1, ttl⟩ st⌋ := by omega
    have hge : (1 : ℚ) ≤ refilledF64 ⟨rate, capacity, now, 1, ttl⟩ st := by
      have := Int.le_floor.mp hfl
      simpa using this
    have hzC := refilledF64_le_capacity ⟨rate, capacity, now, 1, ttl⟩ st
    have hzC2 : refilledF64 ⟨rate, capacity, now, 1, ttl⟩ st ≤ fl capacity := hzC
    have hsub : fl (refilledF64 ⟨rate, capacity, now, 1, ttl⟩ st - 1)
        = refilledF64 ⟨rate, capacity, now, 1, ttl⟩ st - 1 :=
      fl_sub_one _ (refilledF64_double _ _) hge (le_trans hzC2 hC)
    have heff : luaSourceF64 ⟨rate, capacity, now, 1, ttl⟩ st
        = ⟨⟨refilledF64 ⟨rate, capacity, now, 1, ttl⟩ st - 1, (now : ℚ)⟩, ttl, 1⟩ := by
      rw [luaSourceF64_eq]
      show (if fl (((1 : ℤ) : ℚ)) ≤ refilledF64 ⟨rate, capacity, now, 1, ttl⟩ st then
          (⟨⟨fl (refilledF64 ⟨rate, capacity, now, 1, ttl⟩ st - fl (((1 : ℤ) : ℚ))),
            fl ((now : ℤ) : ℚ)⟩, ttl, 1⟩ : EffectF64)
        else ⟨⟨refilledF64 ⟨rate, capacity, now, 1, ttl⟩ st, fl ((now : ℤ) : ℚ)⟩, ttl, 0⟩) = _
      rw [fl_one_int, if_pos hge, hsub, fl_now_eq now hnow]
    have hnext : refilledF64 ⟨rate, capacity, now, 1, ttl⟩
        (some ⟨refilledF64 ⟨rate, capacity, now, 1, ttl⟩ st - 1, (now : ℚ)⟩)
        = refilledF64 ⟨rate, capacity, now, 1, ttl⟩ st - 1 :=
      refilledF64_same_time ⟨rate, capacity, now, 1, ttl⟩ _ hnow hsub
        (by show _ ≤ fl capacity; linarith)
    have hrec := ih (some ⟨refilledF64 ⟨rate, capacity, now, 1, ttl⟩ st - 1, (now : ℚ)⟩)
      (by rw [hnext]; linarith)
      (by
        rw [hnext]
        have : ⌊refilledF64 ⟨rate, capacity, now, 1, ttl⟩ st - 1⌋
            = ⌊refilledF64 ⟨rate, capacity, now, 1, ttl⟩ st⌋ - 1 := Int.floor_sub_one _
        rw [this]
        omega)
    have hlen : n + 1 + K = (n + K) + 1 := by omega
    have hunfold : runResultsF64 rate capacity ttl st ((now, 1) :: List.replicate (n + K) (now, 1))
        = (luaSourceF64 ⟨rate, capacity, now, 1, ttl⟩ st).result
          :: runResultsF64 rate capacity ttl
              (some (luaSourceF64 ⟨rate, capacity, now, 1, ttl⟩ st).stored)
              (List.replicate (n + K) (now, 1)) := rfl
    rw [hlen, List.replicate_succ, hunfold, heff, hrec, List.replicate_succ, List.cons_append]

/-- Every state reached by runs with positive requested amounts holds a
non-negative token count. -/
lemma runStateF64_nonneg (rate capacity : ℚ) (ttl : ℤ) (hC : 0 ≤ fl capacity) (hR : 0 ≤ fl rate) :
    ∀ (cs : List (ℤ × ℤ)) (st : Option BucketF64),
      (∀ b, st = some b → 0 ≤ b.tokens) →
      (∀ x ∈ cs, 0 < x.2 ∧ x.2 ≤ 2 ^ 53) →
      ∀ b, runStateF64 rate capacity ttl st cs = some b → 0 ≤ b.tokens := by
  intro cs
  induction cs with
  | nil => intro st hst _ b hb; exact hst b hb
  | cons c rest ih =>
    intro st hst hq b hb
    obtain ⟨hpos, hreq⟩ := hq c (by simp)
    have hz0 : 0 ≤ refilledF64 ⟨rate, capacity, c.1, c.2, ttl⟩ st :=
      refilledF64_nonneg _ _ hC hR hst
    obtain ⟨_, _, d3, _, _⟩ := debitF64 ⟨rate, capacity, c.1, c.2, ttl⟩ st hz0 hpos hreq
    exact ih (some (luaSourceF64 ⟨rate, capacity, c.1, c.2, ttl⟩ st).stored)
      (fun b2 hb2 => by cases hb2; exact d3) (fun x hx => hq x (by simp [hx])) b hb

/-- The count that the exact product `t * rate` promises is reached in double
arithmetic. -/
lemma floor_le_refilledF64 (capacity : ℕ) (hc53 : capacity ≤ 2 ^ 53) (R r : ℚ) (t : ℕ)
    (hR : 0 ≤ R) (hr : 0 ≤ r) :
    min capacity ⌊(t : ℚ) * R⌋.toNat
      ≤ ⌊min (capacity : ℚ) (fl (r + fl ((t : ℚ) * R)))⌋.toNat := by
  have hP : 0 ≤ (t : ℚ) * R := mul_nonneg (Nat.cast_nonneg t) hR
  have hfP := fl_nonneg _ hP
  have hS := fl_nonneg _ (add_nonneg hr hfP)
  have hZ : 0 ≤ min (capacity : ℚ) (fl (r + fl ((t : ℚ) * R))) := le_min (Nat.cast_nonneg _) hS
  rw [Int.le_toNat (Int.floor_nonneg.mpr hZ), Int.le_floor]
  have hm1 : min capacity ⌊(t : ℚ) * R⌋.toNat ≤ capacity := min_le_left _ _
  have hm2 : min capacity ⌊(t : ℚ) * R⌋.toNat ≤ ⌊(t : ℚ) * R⌋.toNat := min_le_right _ _
  generalize min capacity ⌊(t : ℚ) * R⌋.toNat = m at hm1 hm2 ⊢
  rw [Int.cast_natCast]
  have hmP : (m : ℚ) ≤ (t : ℚ) * R := by
    have h1 : ((m : ℤ)) ≤ ⌊(t : ℚ) * R⌋ := by
      have := Int.toNat_of_nonneg (Int.floor_nonneg.mpr hP)
      omega
    have h2 := Int.le_floor.mp h1
    rw [Int.cast_natCast] at h2
    exact h2
  refine le_min (by exact_mod_cast hm1) ?_
  rcases Nat.eq_zero_or_pos m with h0 | hpos
  · rw [h0]; simpa using hS
  · have hmd : fl (m : ℚ) = (m : ℚ) := fl_natCast m (le_trans hm1 hc53)
    have hm0 : (0 : ℚ) < (m : ℚ) := by exact_mod_cast hpos
    have h1 := fl_ge_of_double_le (m : ℚ) _ hmd hm0 hmP
    exact fl_ge_of_double_le (m : ℚ) _ hmd hm0 (by linarith)

/-- C5 (amended): let the capacity be an integer between 1 and `2^53`, the rate
positive, and let a single-token request at time `s` be denied on a state
reached from a fresh bucket by single-token requests.  It stores `(r, s)` with
`0 <= r < 1`.  Of the single-token requests then issued in succession at time
`s + t` (`s` and `s + t` of absolute value at most `2^52`), exactly
`floor(min(capacity, fl(r + fl(t * rate))))` are allowed and every later one is
denied; that number is at least `min(capacity, floor(t * rate))`. -/
theorem refill_after_denial_float64 (capacity : ℕ) (hc : 1 ≤ capacity) (hc53 : capacity ≤ 2 ^ 53)
    (rate : ℚ) (hr : 0 < rate) (ttl : ℤ) (calls : List (ℤ × ℤ)) (hcalls : ∀ x ∈ calls, x.2 = 1)
    (s : ℤ) (t K : ℕ) (hs : |s| ≤ 2 ^ 52) (hst : |s + (t : ℤ)| ≤ 2 ^ 52)
    (hden : (luaSourceF64 ⟨rate, capacity, s, 1, ttl⟩
      (runStateF64 rate capacity ttl none calls)).result = 0) :
    ∃ r : ℚ,
      (luaSourceF64 ⟨rate, capacity, s, 1, ttl⟩ (runStateF64 rate capacity ttl none calls)).stored
        = ⟨r, (s : ℚ)⟩ ∧
      0 ≤ r ∧ r < 1 ∧
      runResultsF64 rate capacity ttl (some ⟨r, (s : ℚ)⟩)
          (List.replicate
            (⌊min (capacity : ℚ) (fl (r + fl ((t : ℚ) * fl rate)))⌋.toNat + K) (s + t, 1))
        = List.replicate ⌊min (capacity : ℚ) (fl (r + fl ((t : ℚ) * fl rate)))⌋.toNat 1
            ++ List.replicate K 0 ∧
      min capacity ⌊(t : ℚ) * fl rate⌋.toNat
        ≤ ⌊min (capacity : ℚ) (fl (r + fl ((t : ℚ) * fl rate)))⌋.toNat := by
  have hCd : fl ((capacity : ℕ) : ℚ) = (capacity : ℚ) := fl_natCast capacity hc53
  have hcq : (0 : ℚ) < (capacity : ℚ) := by exact_mod_cast hc
  have hC0 : 0 ≤ fl ((capacity : ℕ) : ℚ) := by rw [hCd]; exact le_of_lt hcq
  have hR : 0 ≤ fl rate := fl_nonneg _ (le_of_lt hr)
  have hstate := runStateF64_nonneg rate capacity ttl hC0 hR calls none
    (fun b h => by cases h) (fun x hx => by rw [hcalls x hx]; exact ⟨by decide, by decide⟩)
  have h0 : 0 ≤ refilledF64 ⟨rate, capacity, s, 1, ttl⟩
      (runStateF64 rate capacity ttl none calls) :=
    refilledF64_nonneg _ _ hC0 hR hstate
  have hlt : refilledF64 ⟨rate, capacity, s, 1, ttl⟩
      (runStateF64 rate capacity ttl none calls) < 1 := by
    have := (resultF64_zero_iff _ _).mp hden
    rw [fl_one_int] at this
    exact this
  have hstored : (luaSourceF64 ⟨rate, capacity, s, 1, ttl⟩
      (runStateF64 rate capacity ttl none calls)).stored
      = ⟨refilledF64 ⟨rate, capacity, s, 1, ttl⟩ (runStateF64 rate capacity ttl none calls),
          (s : ℚ)⟩ := by
    rw [denied_storedF64 _ _ hden]
    show (⟨_, fl ((s : ℤ) : ℚ)⟩ : BucketF64) = _
    rw [fl_now_eq s hs]
  refine ⟨_, hstored, h0, hlt, ?_, floor_le_refilledF64 capacity hc53 (fl rate) _ t hR h0⟩
  have hwait := refilledF64_after_wait rate capacity
    (refilledF64 ⟨rate, capacity, s, 1, ttl⟩ (runStateF64 rate capacity ttl none calls))
    ttl s t (refilledF64_double _ _) hs hst
  rw [hCd] at hwait
  have hfloor := runResultsF64_floor rate capacity ttl (s + t) K hst
    (by rw [hCd]; exact_mod_cast hc53)
    ⌊min (capacity : ℚ) (fl (refilledF64 ⟨rate, capacity, s, 1, ttl⟩
      (runStateF64 rate capacity ttl none calls) + fl ((t : ℚ) * fl rate)))⌋.toNat
    (some ⟨refilledF64 ⟨rate, capacity, s, 1, ttl⟩ (runStateF64 rate capacity ttl none calls),
      (s : ℚ)⟩)
    (by
      rw [hwait]
      exact le_min (le_of_lt hcq) (fl_nonneg _ (add_nonneg h0
        (fl_nonneg _ (mul_nonneg (Nat.cast_nonneg t) hR)))))
    (by rw [hwait])
  exact hfloor

/-- Witness of C5 (amended): capacity 1, rate 1; requests at time 0 are allowed
and denied, and two seconds later one request is allowed and three are
denied. -/
theorem refill_after_denial_float64_witness :
    (luaSourceF64 ⟨1, ((1 : ℕ) : ℚ), 0, 1, 2⟩
      (runStateF64 1 ((1 : ℕ) : ℚ) 2 none [(0, 1)])).result = 0 ∧
    ∃ r : ℚ,
      (luaSourceF64 ⟨1, ((1 : ℕ) : ℚ), 0, 1, 2⟩
        (runStateF64 1 ((1 : ℕ) : ℚ) 2 none [(0, 1)])).stored = ⟨r, ((0 : ℤ) : ℚ)⟩ ∧
      0 ≤ r ∧ r < 1 ∧
      runResultsF64 1 ((1 : ℕ) : ℚ) 2 (some ⟨r, ((0 : ℤ) : ℚ)⟩)
          (List.replicate
            (⌊min (((1 : ℕ) : ℚ)) (fl (r + fl (((2 : ℕ) : ℚ) * fl 1)))⌋.toNat + 3)
            (0 + ((2 : ℕ) : ℤ), 1))
        = List.replicate ⌊min (((1 : ℕ) : ℚ)) (fl (r + fl (((2 : ℕ) : ℚ) * fl 1)))⌋.toNat 1
            ++ List.replicate 3 0 ∧
      min 1 ⌊((2 : ℕ) : ℚ) * fl 1⌋.toNat
        ≤ ⌊min (((1 : ℕ) : ℚ)) (fl (r + fl (((2 : ℕ) : ℚ) * fl 1)))⌋.toNat :=
  have hst : runStateF64 1 ((1 : ℕ) : ℚ) 2 none [(0, 1)] = some ⟨0, ((0 : ℤ) : ℚ)⟩ := by
    show some (luaSourceF64 ⟨1, ((1 : ℕ) : ℚ), 0, 1, 2⟩ none).stored = _
    rw [Nat.cast_one, first_run_one, Int.cast_zero]
  have hden : (luaSourceF64 ⟨1, ((1 : ℕ) : ℚ), 0, 1, 2⟩
      (runStateF64 1 ((1 : ℕ) : ℚ) 2 none [(0, 1)])).result = 0 := by
    rw [hst, resultF64_zero_iff,
      refilledF64_same_time ⟨1, ((1 : ℕ) : ℚ), 0, 1, 2⟩ 0 (by norm_num) fl_zero
        (by show (0 : ℚ) ≤ fl ((1 : ℕ) : ℚ); rw [Nat.cast_one, fl_one]; norm_num)]
    show (0 : ℚ) < fl (((1 : ℤ) : ℚ))
    rw [fl_one_int]
    norm_num
  ⟨hden, refill_after_denial_float64 1 (by decide) (by norm_num) 1 (by norm_num) 2 [(0, 1)]
    (fun x hx => by
      simp only [List.mem_singleton] at hx
      rw [hx])
    0 2 3 (by norm_num) (by norm_num) hden⟩

end RateLimiter
